import Mathlib

/-!
# go-fileexplorer: access policy, path resolution and directory listing

A shallow embedding of `src/main.go` (the start-up compilation of the avoid and
allow rules in `main`, and the request handler `handleIndex`) and of the
`Path`/`Config` data of `src/config.go`.

Conventions of the embedding.

* A Go `string` is a sequence of code points, `Str = List Char` (requests and
  rules that are valid UTF-8).  The separator is `/` (the Unix build).
* Library routines the handler calls are embedded from the Go standard library:
  `regexp.QuoteMeta`, `strings.ReplaceAll`, `filepath.Clean`, `filepath.Join`,
  and the insertion sort `sort.Slice` runs on short slices.
* `regexp.Compile` is embedded for the expressions `main` builds: the `(?i)`
  flag followed by escaped literals and `.*`.  Case folding is a table of the
  library (`unicode.SimpleFold`); it enters as the parameter `fold`, the map of
  a code point to the least member of its folding orbit (`minFoldRune`).
* The file system and the template engine are outside the program: the file
  system enters as the `openFile` and `readDir` fields of `Server`, the data
  handed to the template is recorded in the `Outcome`.
-/

set_option linter.dupNamespace false

namespace FileExplorer

/-- Go strings, as sequences of code points. -/
abbrev Str := List Char

/-! ## regexp.QuoteMeta and strings.ReplaceAll -/

/-- The bytes `regexp.QuoteMeta` escapes (`specialBytes`). -/
def special (b : Char) : Bool :=
  "\\.+*?()|[]\x7b\x7d^$".toList.contains b

/-- Embedding of `regexp.QuoteMeta`: a backslash before every special byte. -/
def QuoteMeta : Str → Str
  | [] => []
  | c :: cs => if special c then '\\' :: c :: QuoteMeta cs else c :: QuoteMeta cs

/-- Worker of `ReplaceAll`: `skip` counts the characters of an occurrence of
`old` that was just replaced and whose tail is still to be passed over. -/
def replaceAux (old new : Str) : Nat → Str → Str
  | _, [] => []
  | skip + 1, _ :: cs => replaceAux old new skip cs
  | 0, c :: cs =>
    if old.isPrefixOf (c :: cs) then new ++ replaceAux old new (old.length - 1) cs
    else c :: replaceAux old new 0 cs

/-- Embedding of `strings.ReplaceAll` for a non-empty `old`: the non-overlapping
occurrences of `old`, found left to right, are replaced by `new`. -/
def ReplaceAll (s old new : Str) : Str :=
  replaceAux old new 0 s

/-! ## regexp: the expressions built by `main` -/

/-- The pieces of a compiled expression: a literal matched up to case folding,
and `.*` (any run of characters other than newline). -/
inductive Node where
  | lit (c : Char)
  | dotStar
  deriving DecidableEq

/-- A compiled expression (`*regexp.Regexp`, when not nil). -/
structure Regexp where
  nodes : List Node
  deriving DecidableEq

/-- Parser of the expression body: `\c` for a special `c`, `.*`, and plain
characters.  Anything else is outside the embedded fragment and gives `none`. -/
def parse : Str → Option (List Node)
  | [] => some []
  | c :: rest =>
    if c = '\\' then
      match rest with
      | [] => none
      | d :: rest' => if special d then (parse rest').map (Node.lit d :: ·) else none
    else if c = '.' then
      match rest with
      | [] => none
      | d :: rest' => if d = '*' then (parse rest').map (Node.dotStar :: ·) else none
    else if special c then none
    else (parse rest).map (Node.lit c :: ·)

/-- Embedding of `regexp.Compile` on `(?i)` expressions.  `tooLarge` is the
library's size check (`syntax.ErrLarge`, "expression too large"): an expression
it rejects gives `none`, the nil `*Regexp` that comes with the error. -/
def Compile (tooLarge : Str → Bool) (expr : Str) : Option Regexp :=
  if tooLarge expr then none
  else if "(?i)".toList.isPrefixOf expr then (parse (expr.drop 4)).map Regexp.mk
  else none

/-- The loop of `.*`: the continuation `k` is tried at the current position and
after every further character that is not a newline. -/
def starLoop (k : Str → Bool) : Str → Bool
  | [] => k []
  | x :: xs => k (x :: xs) || (x != '\n' && starLoop k xs)

/-- Anchored match of the node sequence against a prefix of the input. -/
def matchHere (fold : Char → Char) : List Node → Str → Bool
  | [], _ => true
  | Node.lit _ :: _, [] => false
  | Node.lit c :: ts, x :: xs => fold c == fold x && matchHere fold ts xs
  | Node.dotStar :: ts, xs => starLoop (matchHere fold ts) xs

/-- Unanchored search: the match may start at any position of the input. -/
def searchFrom (k : Str → Bool) : Str → Bool
  | [] => k []
  | x :: xs => k (x :: xs) || searchFrom k xs

/-- Embedding of `(*Regexp).Match`: true when some substring matches. -/
def Regexp.Match (fold : Char → Char) (re : Regexp) (b : Str) : Bool :=
  searchFrom (matchHere fold re.nodes) b

/-- Case folding restricted to the ASCII letters, a concrete folding table. -/
def asciiFold (c : Char) : Char := c.toLower

/-! ## config.go and the compilation of the rules in `main` -/

/-- The `Path` struct of `config.go`: a labelled pattern. -/
structure Path where
  Name : Str
  Path : Str
  deriving DecidableEq

/-- The expression `main` hands to `regexp.Compile` for one rule. -/
def ruleExpr (v : Path) : Str :=
  "(?i)".toList ++ ReplaceAll (QuoteMeta v.Path) "\\*".toList ".*".toList

/-- The two compilation loops of `main` (one for `AvoidPaths`, one for
`AllowPaths`): the pattern is appended after the error check, whatever the
check found. -/
def compilePaths (tooLarge : Str → Bool) : List Path → List (Option Regexp) → List (Option Regexp)
  | [], acc => acc
  | v :: vs, acc => compilePaths tooLarge vs (acc ++ [Compile tooLarge (ruleExpr v)])

/-! ## filepath.Clean and filepath.Join (Unix) -/

/-- The test `r == n || os.IsPathSeparator(path[r])` on the unread input. -/
def endOrSep (rest : Str) : Bool :=
  match rest with
  | [] => true
  | c :: _ => c == '/'

/-- The inner loop of the `..` case of `Clean`,
`for out.w > dotdot && !os.IsPathSeparator(out.index(out.w)) { out.w-- }`.
The buffer is held last byte first; `last` is `out.index(out.w)`, the byte the
previous decrement dropped. -/
def backtrackLoop (dotdot : Nat) : Char → Str → Str
  | _, [] => []
  | last, c :: cs =>
    if dotdot < (c :: cs).length ∧ last ≠ '/' then backtrackLoop dotdot c cs else c :: cs

/-- The `..` case of `Clean` when `out.w > dotdot`: `out.w--` and the inner loop. -/
def backtrack (dotdot : Nat) (out : Str) : Str :=
  match out.reverse with
  | [] => []
  | c :: cs => (backtrackLoop dotdot c cs).reverse

/-- The slash a real path element is preceded by:
`if rooted && out.w != 1 || !rooted && out.w != 0 { out.append(Separator) }`. -/
def addSep (rooted : Bool) (out : Str) : Str :=
  if (rooted && out.length != 1) || (!rooted && out.length != 0) then out ++ ['/'] else out

/-- The main loop of `filepath.Clean`, `for r < n`.  `path` is the unread input
`path[r:]`, `out` the bytes written so far, `dotdot` the index where `..` must
stop.  Every turn reads at least one byte, so `fuel = len(path)` turns are
enough (`cleanLoop_fuel`). -/
def cleanLoop (rooted : Bool) : Nat → Str → Str → Nat → Str
  | 0, _, out, _ => out
  | fuel + 1, path, out, dotdot =>
    match path with
    | [] => out
    | c :: r =>
      if c = '/' then
        -- empty path element
        cleanLoop rooted fuel r out dotdot
      else if c = '.' ∧ endOrSep r = true then
        -- . element
        cleanLoop rooted fuel r out dotdot
      else if c = '.' ∧ r.head? = some '.' ∧ endOrSep r.tail = true then
        -- .. element: remove to last separator
        if dotdot < out.length then
          cleanLoop rooted fuel r.tail (backtrack dotdot out) dotdot
        else if !rooted then
          let out' := (if 0 < out.length then out ++ ['/'] else out) ++ ['.', '.']
          cleanLoop rooted fuel r.tail out' out'.length
        else
          cleanLoop rooted fuel r.tail out dotdot
      else
        -- real path element
        cleanLoop rooted fuel (r.dropWhile (· ≠ '/'))
          (addSep rooted out ++ c :: r.takeWhile (· ≠ '/')) dotdot

/-- Embedding of `filepath.Clean`. -/
def Clean (path : Str) : Str :=
  match path with
  | [] => ['.']
  | c :: r =>
    let out :=
      if c = '/' then cleanLoop true r.length r ['/'] 1
      else cleanLoop false (c :: r).length (c :: r) [] 0
    if out.length = 0 then ['.'] else out

/-- Embedding of `filepath.Join` for two elements: the elements from the first
non-empty one on are joined with the separator and cleaned. -/
def Join (a b : Str) : Str :=
  if a ≠ [] then Clean (a ++ '/' :: b)
  else if b ≠ [] then Clean b
  else []

/-! ## The request handler `handleIndex` -/

/-- What the handler reads of an `os.FileInfo`.  `ModTime` is the instant as a
number, so that `Before` and `After` are `<` and `>`. -/
structure FileInfo where
  Name : Str
  Size : Int
  ModTime : Int
  IsDir : Bool
  deriving DecidableEq

/-- An opened `*os.File`: the result of `f.Stat()` (the size, or an error) and
the bytes `io.Copy` reads from it. -/
structure File where
  stat : Except Str Int
  content : Str

/-- The package-level state of `main.go` after start-up, and the world outside. -/
structure Server where
  /-- the folding table of the regexp library -/
  fold : Char → Char
  applicationPath : Str
  /-- `config.DownloadEnabled` -/
  DownloadEnabled : Bool
  /-- `avoidedPaths`; `none` is a nil `*regexp.Regexp` -/
  avoidedPaths : List (Option Regexp)
  /-- `allowedPaths`; `none` is a nil `*regexp.Regexp` -/
  allowedPaths : List (Option Regexp)
  /-- `os.OpenFile(filePath, os.O_RDONLY, 0755)` -/
  openFile : Str → Except Str File
  /-- `ioutil.ReadDir(path)` -/
  readDir : Str → Except Str (List FileInfo)

/-- The form values `handleIndex` reads; an absent value is the empty string. -/
structure Request where
  dir : Str
  op : Str
  folder : Str
  id : Str
  o : Str
  ot : Str
  deriving DecidableEq

/-- The `records` map handed to the template; an absent key is `none`. -/
structure Records where
  Download : Option Bool
  Order : Option Str
  OrderType : Option Str
  Dir : Option Str
  Files : Option (List FileInfo)
  deriving DecidableEq

/-- The `messages` map, `map[string][]string`; an absent key reads as nil. -/
abbrev Messages := Str → List Str

/-- The assignment `messages[key] = value`. -/
def Messages.set (m : Messages) (key : Str) (value : List Str) : Messages :=
  fun k => if k = key then value else m k

/-- The response headers the handler sets. -/
inductive Header where
  | contentDisposition (filename : Str)
  | contentType (value : Str)
  | contentLength (size : Int)
  deriving DecidableEq

/-- What a run of the handler did: the paths handed to `os.OpenFile` and to
`ioutil.ReadDir`, the headers set, the bytes copied to the response, and the
data handed to `templates.ExecuteTemplate`. -/
structure Outcome where
  opened : List Str
  listed : List Str
  header : List Header
  body : Option Str
  page : Option (Records × Messages)

/-- A run of the handler ends normally or in a run-time panic (the method call
on a nil `*regexp.Regexp`). -/
inductive Result where
  | panic
  | done (out : Outcome)

/-- The two loops `for _, pattern := range ... { if pattern.Match(...) { ...; break } }`:
`some true` when a pattern matched, `none` when a nil pattern was reached first. -/
def matchAny (fold : Char → Char) (path : Str) : List (Option Regexp) → Option Bool
  | [] => some false
  | none :: _ => none
  | some pattern :: rest =>
    if pattern.Match fold path then some true else matchAny fold path rest

/-- The path the handler works on: `dir` (or the application path), then the
`in` and `up` operations. -/
def resolve (s : Server) (r : Request) : Str :=
  let path := if r.dir = [] then s.applicationPath else r.dir
  let path := if r.op = "in".toList then Join path r.folder else path
  if r.op = "up".toList then Join path "..".toList else path

/-- The comparison closure passed to `sort.Slice`. -/
def less (order orderType : Str) (p q : FileInfo) : Bool :=
  if order = "date".toList then
    if orderType = "z".toList then decide (p.ModTime < q.ModTime) else decide (p.ModTime > q.ModTime)
  else if order = "size".toList then
    if orderType = "z".toList then decide (p.Size < q.Size) else decide (p.Size > q.Size)
  else
    if orderType = "z".toList then decide (p.Name < q.Name) else decide (p.Name > q.Name)

/-- The inner loop of the library's `insertionSort`,
`for j := i; j > a && less(j, j-1); j-- { swap(j, j-1) }`: the element `x`
moves down the sorted prefix, which is held last element first. -/
def sink {α : Type} (lt : α → α → Bool) (x : α) : List α → List α
  | [] => [x]
  | y :: ys => if lt x y then y :: sink lt x ys else x :: y :: ys

/-- The outer loop of `insertionSort`: `pre` is the sorted prefix, last element
first, `rest` the elements still to insert. -/
def insertionSort {α : Type} (lt : α → α → Bool) : List α → List α → List α
  | pre, [] => pre.reverse
  | pre, x :: rest => insertionSort lt (sink lt x pre) rest

/-- Embedding of `sort.Slice`, by the insertion sort the library runs on short
slices.  On longer slices the library sorts by another method, which may leave
entries with equal keys in another order. -/
def sortSlice {α : Type} (lt : α → α → Bool) (entries : List α) : List α :=
  insertionSort lt [] entries

/-- The message of a refused download. -/
def msgDownloadOff : Str := "O download de arquivos não esta habilitado".toList

/-- The message of a path on the avoid list. -/
def msgAvoided : Str := "O caminho solicitado está na relação de proibidos".toList

/-- The message of a path not on the allow list. -/
def msgNotAllowed : Str := "O caminho solicitado não esta na relação de permitidos".toList

/-- The message of a file that cannot be opened or inspected. -/
def msgOpen (filePath err : Str) : Str :=
  "Não foi possível abrir o arquivo \x7b".toList ++ filePath ++ "\x7d, ".toList ++ err

/-- The message of a directory that cannot be read. -/
def msgReadDir (path err : Str) : Str :=
  "Não foi possível ler o diretório \x7b".toList ++ path ++ "\x7d, ".toList ++ err

/-- How the download block of the handler ends: the file was sent and the
handler returned, or control goes on to the page. -/
inductive DownloadStep where
  | sent (out : Outcome)
  | goOn (messages : Messages) (opened : List Str)

/-- The block `if op == "download" && !pathAvoided && pathAllowed { ... }`,
entered with its condition true.  A failing `io.Copy` only adds a message that
is never rendered, the handler returns right after it. -/
def download (s : Server) (r : Request) (path : Str) (messages : Messages) : DownloadStep :=
  if !s.DownloadEnabled then
    .goOn (messages.set "Alerts".toList (messages "Alerts".toList ++ [msgDownloadOff])) []
  else if r.id ≠ [] then
    let filePath := Join path r.id
    match s.openFile filePath with
    | .error err =>
      .goOn (messages.set "Errors".toList (messages "Erros".toList ++ [msgOpen filePath err])) [filePath]
    | .ok f =>
      match f.stat with
      | .error err =>
        .goOn (messages.set "Errors".toList (messages "Erros".toList ++ [msgOpen filePath err])) [filePath]
      | .ok size =>
        .sent { opened := [filePath], listed := [],
                header := [.contentDisposition r.id, .contentType "application/octet-stream".toList,
                           .contentLength size],
                body := some f.content, page := none }
  else .goOn messages []

/-- The rest of the handler, from the deferred template call on: the two
refusals, then the listing. -/
def renderPage (s : Server) (r : Request) (path : Str) (pathAvoided pathAllowed : Bool)
    (messages : Messages) (opened : List Str) : Outcome :=
  let records : Records := ⟨none, none, none, none, none⟩
  if pathAvoided then
    { opened := opened, listed := [], header := [], body := none,
      page := some (records, messages.set "Alerts".toList (messages "Alerts".toList ++ [msgAvoided])) }
  else if !pathAllowed then
    { opened := opened, listed := [], header := [], body := none,
      page := some (records, messages.set "Alerts".toList (messages "Alerts".toList ++ [msgNotAllowed])) }
  else
    let records := { records with Download := some s.DownloadEnabled }
    let order := if r.o ≠ "name".toList ∧ r.o ≠ "date".toList ∧ r.o ≠ "size".toList
      then "name".toList else r.o
    let records := { records with Order := some order }
    let orderType := if r.ot = "z".toList then "a".toList else "z".toList
    let records := { records with OrderType := some orderType }
    let records := { records with Dir := some path }
    match s.readDir path with
    | .error err =>
      { opened := opened, listed := [path], header := [], body := none,
        page := some (records,
          messages.set "Errors".toList (messages "Erros".toList ++ [msgReadDir path err])) }
    | .ok entries =>
      { opened := opened, listed := [path], header := [], body := none,
        page := some ({ records with Files := some (sortSlice (less order orderType) entries) },
          messages) }

/-- The access evaluation of the handler: the flags `pathAvoided` and
`pathAllowed`, or `none` when a nil pattern makes the handler panic. -/
def evaluate (fold : Char → Char) (path : Str) (avoidedPaths allowedPaths : List (Option Regexp)) :
    Option (Bool × Bool) :=
  match matchAny fold path avoidedPaths with
  | none => none
  | some pathAvoided =>
    match matchAny fold path allowedPaths with
    | none => none
    | some hit => some (pathAvoided, allowedPaths.length == 0 || hit)

/-- Embedding of `handleIndex`. -/
def handleIndex (s : Server) (r : Request) : Result :=
  let messages : Messages := fun _ => []
  let path := resolve s r
  match evaluate s.fold path s.avoidedPaths s.allowedPaths with
  | none => .panic
  | some (pathAvoided, pathAllowed) =>
    if r.op = "download".toList ∧ pathAvoided = false ∧ pathAllowed = true then
      match download s r path messages with
      | .sent out => .done out
      | .goOn messages opened => .done (renderPage s r path pathAvoided pathAllowed messages opened)
    else .done (renderPage s r path pathAvoided pathAllowed messages [])

/-! ## Notions used in the statements -/

/-- The node a pattern character compiles to: `*` gives `.*`, any other
character the literal itself. -/
def toNode (c : Char) : Node := if c = '*' then Node.dotStar else Node.lit c

/-- The expression body `main` builds from a pattern. -/
def maskOf (pat : Str) : Str := replaceAux ['\\', '*'] ['.', '*'] 0 (QuoteMeta pat)

/-- The strings obtained from a pattern by replacing each `*` with a run of
characters satisfying `fill` and keeping every other character. -/
inductive Expands (fill : Char → Prop) : Str → Str → Prop where
  | nil : Expands fill [] []
  | lit {c : Char} {pat s : Str} : c ≠ '*' → Expands fill pat s → Expands fill (c :: pat) (c :: s)
  | star {pat s : Str} (w : Str) : (∀ x ∈ w, fill x) → Expands fill pat s →
      Expands fill ('*' :: pat) (w ++ s)

/-- Two strings that differ only in the case of their letters: the same length,
and at every position two characters of one folding orbit. -/
def SameCase (fold : Char → Char) (a b : Str) : Prop :=
  List.Forall₂ (fun x y => fold x = fold y) a b

/-- What the statements use of the folding table: an ASCII letter and its lower
case fold together, and newline and `*` fold with nothing else. -/
structure FoldTable (fold : Char → Char) : Prop where
  ascii : ∀ c : Char, fold c.toLower = fold c
  newline : ∀ c : Char, fold c = fold '\n' → c = '\n'
  star : ∀ c : Char, fold c = fold '*' → c = '*'

/-- The order of two entries by the key chosen with `order`: the modification
time, the size, or (any other value) the name. -/
def keyLE (order : Str) (p q : FileInfo) : Prop :=
  if order = "date".toList then p.ModTime ≤ q.ModTime
  else if order = "size".toList then p.Size ≤ q.Size
  else p.Name ≤ q.Name

/-- A listing in non-decreasing order of the key. -/
def ascending (order : Str) (l : List FileInfo) : Prop :=
  l.Pairwise (fun p q => keyLE order p q)

/-- A listing in non-increasing order of the key. -/
def descending (order : Str) (l : List FileInfo) : Prop :=
  l.Pairwise (fun p q => keyLE order q p)

/-- A plain segment name: not empty, without separator, and neither `.` nor `..`. -/
def isPlain (name : Str) : Bool :=
  !name.isEmpty && !name.contains '/' && name != ['.'] && name != ['.', '.']

/-- The segments joined with the separator. -/
def joinSegs : List Str → Str
  | [] => []
  | [s] => s
  | s :: t :: rest => s ++ '/' :: joinSegs (t :: rest)

/-- The absolute path with the given segments; no segment is the root `/`. -/
def absPath (segs : List Str) : Str := '/' :: joinSegs segs

/-- One turn of the loop of `Clean` on the input `c :: r`: the unread input, the
buffer and `dotdot` after the turn. -/
def next (rooted : Bool) (c : Char) (r out : Str) (dotdot : Nat) : Str × Str × Nat :=
  if c = '/' then (r, out, dotdot)
  else if c = '.' ∧ endOrSep r = true then (r, out, dotdot)
  else if c = '.' ∧ r.head? = some '.' ∧ endOrSep r.tail = true then
    if dotdot < out.length then (r.tail, backtrack dotdot out, dotdot)
    else if !rooted then
      ((r.tail, (if 0 < out.length then out ++ ['/'] else out) ++ ['.', '.'],
        ((if 0 < out.length then out ++ ['/'] else out) ++ ['.', '.']).length))
    else (r.tail, out, dotdot)
  else (r.dropWhile (· ≠ '/'), addSep rooted out ++ c :: r.takeWhile (· ≠ '/'), dotdot)

/-- The loop of `Clean` with the fuel it is started with. -/
def run (rooted : Bool) (path out : Str) (dotdot : Nat) : Str :=
  cleanLoop rooted path.length path out dotdot

/-- The run ended in a panic. -/
def Result.panicked : Result → Bool
  | .done _ => false
  | .panic => true

/-- The data handed to the template, if the run got that far. -/
def Result.page : Result → Option (Records × Messages)
  | .done out => out.page
  | .panic => none

/-- The `Files` entry of the records handed to the template. -/
def Result.files (res : Result) : Option (List FileInfo) :=
  match res.page with
  | some (records, _) => records.Files
  | none => none

/-- The `Alerts` messages handed to the template. -/
def Result.alerts (res : Result) : List Str :=
  match res.page with
  | some (_, messages) => messages "Alerts".toList
  | none => []

/-- The directories handed to `ioutil.ReadDir`. -/
def Result.listed : Result → List Str
  | .done out => out.listed
  | .panic => []

/-- The files handed to `os.OpenFile`. -/
def Result.opened : Result → List Str
  | .done out => out.opened
  | .panic => []

/-- The response headers set. -/
def Result.header : Result → List Header
  | .done out => out.header
  | .panic => []

/-- The bytes copied to the response. -/
def Result.body : Result → Option Str
  | .done out => out.body
  | .panic => none

/-- Some avoid matcher matches the path. -/
def Avoided (fold : Char → Char) (path : Str) (avoid : List Regexp) : Prop :=
  ∃ m ∈ avoid, m.Match fold path = true

/-- The allow list is empty or some allow matcher matches the path. -/
def Allowed (fold : Char → Char) (path : Str) (allow : List Regexp) : Prop :=
  allow = [] ∨ ∃ m ∈ allow, m.Match fold path = true

/-! ## Configurations used in the examples -/

/-- The two entries of scenario C: `b` of size 10 and `a` of size 20. -/
def demoEntries : List FileInfo :=
  [⟨"b".toList, 10, 0, false⟩, ⟨"a".toList, 20, 0, false⟩]

/-- A server with the avoid rule `/secret*`, no allow rule and downloads
enabled; every directory lists `demoEntries`, every file opens. -/
def demo : Server where
  fold := asciiFold
  applicationPath := "/app".toList
  DownloadEnabled := true
  avoidedPaths := compilePaths (fun _ => false) [⟨"secret".toList, "/secret*".toList⟩] []
  allowedPaths := compilePaths (fun _ => false) [] []
  openFile := fun filePath => .ok ⟨.ok 3, filePath⟩
  readDir := fun _ => .ok demoEntries

/-- The server `demo` with downloads disabled. -/
def demoOff : Server := { demo with DownloadEnabled := false }

/-- A server without rules whose directories cannot be read. -/
def unreadable : Server where
  fold := asciiFold
  applicationPath := "/app".toList
  DownloadEnabled := true
  avoidedPaths := []
  allowedPaths := []
  openFile := fun _ => .error "no such file".toList
  readDir := fun _ => .error "no such directory".toList

/-- A size check that rejects expressions of more than sixteen characters. -/
def smallLimit (expr : Str) : Bool := decide (16 < expr.length)

/-- Two avoid rules, the second too large for `smallLimit`. -/
def twoRules : List Path :=
  [⟨"tmp".toList, "/tmp/*".toList⟩, ⟨"long".toList, "/a/very/long/pattern".toList⟩]

/-- The server `demo` started with `twoRules` under `smallLimit`. -/
def demoBroken : Server := { demo with avoidedPaths := compilePaths smallLimit twoRules [] }

/-! ## Lemmas: the compilation of a rule -/


theorem special_star : special '*' = true := by decide

theorem special_backslash : special '\\' = true := by decide

theorem special_dot : special '.' = true := by decide

theorem ne_of_not_special {c d : Char} (hc : special c = false) (hd : special d = true) : c ≠ d := by
  intro h
  rw [h, hd] at hc
  exact Bool.noConfusion hc

theorem QuoteMeta_head (cs : Str) : (QuoteMeta cs).head? ≠ some '*' := by
  cases cs with
  | nil => simp [QuoteMeta]
  | cons c cs =>
    by_cases h : special c = true
    · simp [QuoteMeta, h]
    · have h' : special c = false := by simpa using h
      simp [QuoteMeta, h']
      exact ne_of_not_special h' special_star


theorem ruleExpr_eq (v : Path) : ruleExpr v = '(' :: '?' :: 'i' :: ')' :: maskOf v.Path := by
  have h0 : "(?i)".toList = ['(', '?', 'i', ')'] := by decide
  have h1 : "\\*".toList = ['\\', '*'] := by decide
  have h2 : ".*".toList = ['.', '*'] := by decide
  simp only [ruleExpr, ReplaceAll, maskOf, h0, h1, h2, List.cons_append, List.nil_append]

/-- The expression body, piece by piece. -/
theorem maskOf_cons (c : Char) (cs : Str) :
    maskOf (c :: cs) =
      (if c = '*' then ['.', '*'] else if special c then ['\\', c] else [c]) ++ maskOf cs := by
  by_cases hs : special c = true
  · by_cases hc : c = '*'
    · subst hc
      simp [maskOf, QuoteMeta, replaceAux, special_star]
    · have hq := QuoteMeta_head cs
      have hc' : ¬ '*' = c := fun h => hc h.symm
      cases hQ : QuoteMeta cs with
      | nil => simp [maskOf, QuoteMeta, replaceAux, hs, hc, hc', hQ]
      | cons d ds =>
        have hd : ¬ '*' = d := by
          intro h
          rw [hQ, ← h] at hq
          exact hq rfl
        simp [maskOf, QuoteMeta, replaceAux, hs, hc, hc', hQ, hd]
  · have hs' : special c = false := by simpa using hs
    have hc : c ≠ '*' := ne_of_not_special hs' special_star
    have hb : ¬ '\\' = c := fun h => ne_of_not_special hs' special_backslash h.symm
    simp [maskOf, QuoteMeta, replaceAux, hs', hc, hb]

theorem parse_maskOf (pat : Str) : parse (maskOf pat) = some (pat.map toNode) := by
  induction pat with
  | nil => simp [maskOf, QuoteMeta, replaceAux, parse]
  | cons c cs ih =>
    rw [maskOf_cons]
    by_cases hc : c = '*'
    · subst hc
      simp [parse, ih, toNode]
    · by_cases hs : special c = true
      · simp [hc, hs, parse, ih, toNode]
      · have hs' : special c = false := by simpa using hs
        have hb : c ≠ '\\' := ne_of_not_special hs' special_backslash
        have hd : c ≠ '.' := ne_of_not_special hs' special_dot
        simp only [hc, hs', if_false, Bool.false_eq_true, List.singleton_append, List.map_cons, toNode]
        rw [parse.eq_def]
        simp [hs', hb, hd, ih]

/-- What `regexp.Compile` returns on the expression of a rule: nil when the
expression is rejected, else the nodes of the pattern, character by character. -/
theorem Compile_ruleExpr (tooLarge : Str → Bool) (v : Path) :
    Compile tooLarge (ruleExpr v) =
      if tooLarge (ruleExpr v) then none else some ⟨v.Path.map toNode⟩ := by
  by_cases h : tooLarge (ruleExpr v) = true
  · simp [Compile, h]
  · have h0 : "(?i)".toList = ['(', '?', 'i', ')'] := by decide
    simp only [Compile, h, if_false, h0]
    rw [ruleExpr_eq]
    simp [parse_maskOf]

theorem Compile_some {tooLarge : Str → Bool} {v : Path} {re : Regexp}
    (h : Compile tooLarge (ruleExpr v) = some re) : re = ⟨v.Path.map toNode⟩ := by
  rw [Compile_ruleExpr] at h
  by_cases ht : tooLarge (ruleExpr v) = true
  · simp [ht] at h
  · simp [ht] at h
    exact h.symm

theorem compilePaths_eq (tooLarge : Str → Bool) (rules : List Path) (acc : List (Option Regexp)) :
    compilePaths tooLarge rules acc = acc ++ rules.map (fun v => Compile tooLarge (ruleExpr v)) := by
  induction rules generalizing acc with
  | nil => simp [compilePaths]
  | cons v vs ih => simp [compilePaths, ih]

/-! ## Lemmas: matching -/

theorem starLoop_of_here {k : Str → Bool} {xs : Str} (h : k xs = true) : starLoop k xs = true := by
  cases xs with
  | nil => simpa [starLoop] using h
  | cons x xs => simp [starLoop, h]

theorem starLoop_append {k : Str → Bool} (w xs : Str) (hw : ∀ x ∈ w, x ≠ '\n')
    (h : k xs = true) : starLoop k (w ++ xs) = true := by
  induction w with
  | nil => exact starLoop_of_here h
  | cons a w ih =>
    have ha : a ≠ '\n' := hw a (List.mem_cons_self a w)
    have hr := ih (fun x hx => hw x (List.mem_cons_of_mem a hx))
    simp [starLoop, ha, hr]

theorem searchFrom_append {k : Str → Bool} (pre xs : Str) (h : k xs = true) :
    searchFrom k (pre ++ xs) = true := by
  induction pre with
  | nil =>
    cases xs with
    | nil => simpa [searchFrom] using h
    | cons x xs => simp [searchFrom, h]
  | cons a pre ih => simp [searchFrom, ih]

/-- An expansion of the pattern whose fillers hold no newline is matched at the
start of any input that begins with it. -/
theorem matchHere_expands (fold : Char → Char) {pat s : Str}
    (h : Expands (fun x => x ≠ '\n') pat s) (post : Str) :
    matchHere fold (pat.map toNode) (s ++ post) = true := by
  induction h with
  | nil => simp [matchHere]
  | lit hc _ ih => simp [toNode, hc, matchHere, ih]
  | star w hw _ ih =>
    simp only [List.map_cons, toNode, if_true, matchHere, List.append_assoc]
    exact starLoop_append w _ hw ih

theorem starLoop_congr {fold : Char → Char} (hn : ∀ c : Char, fold c = fold '\n' → c = '\n')
    {k₁ k₂ : Str → Bool} {a b : Str} (hab : SameCase fold a b)
    (hk : ∀ x y, SameCase fold x y → k₁ x = k₂ y) : starLoop k₁ a = starLoop k₂ b := by
  induction hab with
  | nil => simpa [starLoop] using hk [] [] List.Forall₂.nil
  | @cons x y xs ys hxy hrest ih =>
    have h1 : k₁ (x :: xs) = k₂ (y :: ys) := hk _ _ (List.Forall₂.cons hxy hrest)
    have h2 : (x != '\n') = (y != '\n') := by
      by_cases hx : x = '\n'
      · have hy : y = '\n' := hn y (by rw [← hxy, hx])
        rw [hx, hy]
      · have hy : y ≠ '\n' := fun hy => hx (hn x (by rw [hxy, hy]))
        rw [bne_iff_ne.mpr hx, bne_iff_ne.mpr hy]
    simp only [starLoop, h1, h2, ih]

/-- The anchored match does not tell apart two inputs, nor two patterns, that
differ only in case. -/
theorem matchHere_congr {fold : Char → Char} (ht : FoldTable fold) {p q : Str}
    (hpq : SameCase fold p q) :
    ∀ {a b : Str}, SameCase fold a b →
      matchHere fold (p.map toNode) a = matchHere fold (q.map toNode) b := by
  induction hpq with
  | nil => intro a b _; simp [matchHere]
  | @cons c d cs ds hcd _ ih =>
    intro a b hab
    by_cases hc : c = '*'
    · have hd : d = '*' := ht.star d (by rw [← hcd, hc])
      subst hc; subst hd
      simp only [List.map_cons, toNode, if_true, matchHere]
      exact starLoop_congr ht.newline hab (fun x y hxy => ih hxy)
    · have hd : d ≠ '*' := fun hd => hc (ht.star c (by rw [hcd, hd]))
      simp only [List.map_cons, toNode, hc, hd, if_false]
      cases hab with
      | nil => rfl
      | @cons x y xs ys hxy hrest =>
        simp only [matchHere, ih hrest, hcd, hxy]

theorem searchFrom_congr {fold : Char → Char} {k₁ k₂ : Str → Bool} {a b : Str}
    (hab : SameCase fold a b) (hk : ∀ x y, SameCase fold x y → k₁ x = k₂ y) :
    searchFrom k₁ a = searchFrom k₂ b := by
  induction hab with
  | nil => simpa [searchFrom] using hk [] [] List.Forall₂.nil
  | @cons x y xs ys hxy hrest ih =>
    have h1 : k₁ (x :: xs) = k₂ (y :: ys) := hk _ _ (List.Forall₂.cons hxy hrest)
    simp only [searchFrom, h1, ih]

theorem SameCase.refl (fold : Char → Char) (a : Str) : SameCase fold a a := by
  induction a with
  | nil => exact List.Forall₂.nil
  | cons x xs ih => exact List.Forall₂.cons rfl ih

theorem Match_congr {fold : Char → Char} (ht : FoldTable fold) {p q a b : Str}
    (hpq : SameCase fold p q) (hab : SameCase fold a b) :
    Regexp.Match fold ⟨p.map toNode⟩ a = Regexp.Match fold ⟨q.map toNode⟩ b :=
  searchFrom_congr hab (fun _ _ hxy => matchHere_congr ht hpq hxy)

theorem toLower_cases (c : Char) :
    c.toLower = c ∨ ∃ n : Nat, 65 ≤ n ∧ n ≤ 90 ∧ c = Char.ofNat n := by
  by_cases h : c.toNat ≥ 65 ∧ c.toNat ≤ 90
  · exact Or.inr ⟨c.toNat, h.1, h.2, (Char.ofNat_toNat c).symm⟩
  · exact Or.inl (by simp [Char.toLower, h])

theorem foldTable_asciiFold : FoldTable asciiFold := by
  refine ⟨?_, ?_, ?_⟩
  · intro c
    rcases toLower_cases c with h | ⟨n, h1, h2, rfl⟩
    · simp [asciiFold, h]
    · interval_cases n <;> decide
  · intro c hc
    rcases toLower_cases c with h | ⟨n, h1, h2, rfl⟩
    · have : c = asciiFold '\n' := by rw [← hc, asciiFold, h]
      rw [this]; decide
    · revert hc; interval_cases n <;> decide
  · intro c hc
    rcases toLower_cases c with h | ⟨n, h1, h2, rfl⟩
    · have : c = asciiFold '*' := by rw [← hc, asciiFold, h]
      rw [this]; decide
    · revert hc; interval_cases n <;> decide

/-! ## Lemmas: sorting -/

theorem sink_perm {α : Type} (lt : α → α → Bool) (x : α) (l : List α) :
    (sink lt x l).Perm (x :: l) := by
  induction l with
  | nil => exact List.Perm.refl _
  | cons y ys ih =>
    by_cases h : lt x y = true
    · simp only [sink, h, if_true]
      exact (List.Perm.cons y ih).trans (List.Perm.swap x y ys)
    · have hf : lt x y = false := by simpa using h
      simp only [sink, hf, Bool.false_eq_true, if_false]
      exact List.Perm.refl _

theorem insertionSort_perm {α : Type} (lt : α → α → Bool) (pre rest : List α) :
    (insertionSort lt pre rest).Perm (pre ++ rest) := by
  induction rest generalizing pre with
  | nil => simp [insertionSort]
  | cons x xs ih =>
    simp only [insertionSort]
    refine (ih (sink lt x pre)).trans ?_
    refine (List.Perm.append_right xs (sink_perm lt x pre)).trans ?_
    simpa using (List.perm_middle : (pre ++ x :: xs).Perm (x :: (pre ++ xs))).symm

theorem sink_pairwise {α : Type} {lt : α → α → Bool} {le : α → α → Prop}
    (htot : ∀ a b, le a b ∨ le b a) (htrans : ∀ a b c, le a b → le b c → le a c)
    (hlt : ∀ a b, lt a b = true ↔ ¬ le b a) (x : α) {l : List α}
    (hp : l.Pairwise (fun a b => le b a)) : (sink lt x l).Pairwise (fun a b => le b a) := by
  induction l with
  | nil => simp [sink]
  | cons y ys ih =>
    rw [List.pairwise_cons] at hp
    by_cases h : lt x y = true
    · simp only [sink, h, if_true]
      rw [List.pairwise_cons]
      refine ⟨?_, ih hp.2⟩
      intro z hz
      have hz' : z ∈ x :: ys := (List.Perm.mem_iff (sink_perm lt x ys)).mp hz
      rcases List.mem_cons.mp hz' with hzx | hzy
      · rw [hzx]
        rcases htot x y with h1 | h1
        · exact h1
        · exact absurd h1 ((hlt x y).mp h)
      · exact hp.1 z hzy
    · have hf : lt x y = false := by simpa using h
      simp only [sink, hf, Bool.false_eq_true, if_false]
      have hyx : le y x := by
        by_contra hn
        exact h ((hlt x y).mpr hn)
      rw [List.pairwise_cons, List.pairwise_cons]
      refine ⟨?_, hp⟩
      intro z hz
      rcases List.mem_cons.mp hz with hz | hz
      · rw [hz]; exact hyx
      · exact htrans z y x (hp.1 z hz) hyx

theorem insertionSort_pairwise {α : Type} {lt : α → α → Bool} {le : α → α → Prop}
    (htot : ∀ a b, le a b ∨ le b a) (htrans : ∀ a b c, le a b → le b c → le a c)
    (hlt : ∀ a b, lt a b = true ↔ ¬ le b a) {pre : List α} (rest : List α)
    (hp : pre.Pairwise (fun a b => le b a)) : (insertionSort lt pre rest).Pairwise le := by
  induction rest generalizing pre with
  | nil => simpa [insertionSort, List.pairwise_reverse] using hp
  | cons x xs ih => exact ih (sink_pairwise htot htrans hlt x hp)

theorem sortSlice_pairwise {α : Type} {lt : α → α → Bool} {le : α → α → Prop}
    (htot : ∀ a b, le a b ∨ le b a) (htrans : ∀ a b c, le a b → le b c → le a c)
    (hlt : ∀ a b, lt a b = true ↔ ¬ le b a) (entries : List α) :
    (sortSlice lt entries).Pairwise le :=
  insertionSort_pairwise htot htrans hlt entries List.Pairwise.nil

theorem sortSlice_perm {α : Type} (lt : α → α → Bool) (entries : List α) :
    (sortSlice lt entries).Perm entries := by
  simpa [sortSlice] using insertionSort_perm lt [] entries

theorem keyLE_total (order : Str) (p q : FileInfo) : keyLE order p q ∨ keyLE order q p := by
  unfold keyLE
  split
  · exact le_total _ _
  · split
    · exact le_total _ _
    · exact le_total _ _

theorem keyLE_trans (order : Str) (p q r : FileInfo) (h1 : keyLE order p q)
    (h2 : keyLE order q r) : keyLE order p r := by
  unfold keyLE at *
  split
  · simp_all; exact le_trans h1 h2
  · split
    · simp_all; exact le_trans h1 h2
    · simp_all; exact le_trans h1 h2

theorem less_z (order : Str) (p q : FileInfo) :
    less order "z".toList p q = true ↔ ¬ keyLE order q p := by
  unfold less keyLE
  split
  · simp
  · split
    · simp
    · simp

theorem less_a (order orderType : Str) (h : orderType ≠ "z".toList) (p q : FileInfo) :
    less order orderType p q = true ↔ ¬ keyLE order p q := by
  unfold less keyLE
  split
  · simp [h]
  · split
    · simp [h]
    · simp [h]

/-- What `sort.Slice` with the handler's closure returns: a rearrangement of the
entries, ascending by the key for `orderType == "z"` and descending otherwise. -/
theorem sortSlice_less (order orderType : Str) (entries : List FileInfo) :
    (sortSlice (less order orderType) entries).Perm entries ∧
      (orderType = "z".toList → ascending order (sortSlice (less order orderType) entries)) ∧
      (orderType ≠ "z".toList → descending order (sortSlice (less order orderType) entries)) := by
  refine ⟨sortSlice_perm _ _, ?_, ?_⟩
  · intro h
    subst h
    exact sortSlice_pairwise (keyLE_total order) (keyLE_trans order) (less_z order) entries
  · intro h
    exact @sortSlice_pairwise _ _ (fun p q => keyLE order q p)
      (fun a b => keyLE_total order b a) (fun a b c h1 h2 => keyLE_trans order c b a h2 h1)
      (less_a order orderType h) entries

/-! ## Lemmas: filepath.Clean -/

theorem cleanLoop_succ (rooted : Bool) (n : Nat) (c : Char) (r out : Str) (dotdot : Nat) :
    cleanLoop rooted (n + 1) (c :: r) out dotdot =
      cleanLoop rooted n (next rooted c r out dotdot).1 (next rooted c r out dotdot).2.1
        (next rooted c r out dotdot).2.2 := by
  simp only [cleanLoop, next]
  split_ifs <;> rfl

theorem next_length (rooted : Bool) (c : Char) (r out : Str) (dotdot : Nat) :
    (next rooted c r out dotdot).1.length ≤ r.length := by
  have h1 : r.tail.length ≤ r.length := by simp
  have h2 : (r.dropWhile (· ≠ '/')).length ≤ r.length :=
    (List.dropWhile_sublist _).length_le
  simp only [next]
  split_ifs <;> first | exact le_refl _ | exact h1 | exact h2

/-- The loop of `Clean` ends before its fuel does: any fuel from the length of
the unread input on gives the same result. -/
theorem cleanLoop_fuel (rooted : Bool) (f₁ f₂ : Nat) (path out : Str) (dotdot : Nat)
    (h₁ : path.length ≤ f₁) (h₂ : path.length ≤ f₂) :
    cleanLoop rooted f₁ path out dotdot = cleanLoop rooted f₂ path out dotdot := by
  induction f₁ generalizing f₂ path out dotdot with
  | zero =>
    have hp : path = [] := List.length_eq_zero.mp (Nat.le_zero.mp h₁)
    subst hp
    cases f₂ <;> simp [cleanLoop]
  | succ n ih =>
    cases path with
    | nil => cases f₂ <;> simp [cleanLoop]
    | cons c r =>
      cases f₂ with
      | zero => simp at h₂
      | succ m =>
        rw [cleanLoop_succ, cleanLoop_succ]
        have hl := next_length rooted c r out dotdot
        simp only [List.length_cons] at h₁ h₂
        exact ih m _ _ _ (by omega) (by omega)

theorem run_nil (rooted : Bool) (out : Str) (dotdot : Nat) : run rooted [] out dotdot = out := by
  simp [run, cleanLoop]

theorem run_cons (rooted : Bool) (c : Char) (r out : Str) (dotdot : Nat) :
    run rooted (c :: r) out dotdot =
      run rooted (next rooted c r out dotdot).1 (next rooted c r out dotdot).2.1
        (next rooted c r out dotdot).2.2 := by
  simp only [run, List.length_cons]
  rw [cleanLoop_succ]
  exact cleanLoop_fuel rooted _ _ _ _ _ (next_length rooted c r out dotdot) (le_refl _)

theorem run_sep (rooted : Bool) (r out : Str) (dotdot : Nat) :
    run rooted ('/' :: r) out dotdot = run rooted r out dotdot := by
  rw [run_cons]; simp [next]

theorem isPlain_iff (s : Str) :
    isPlain s = true ↔ s ≠ [] ∧ '/' ∉ s ∧ s ≠ ['.'] ∧ s ≠ ['.', '.'] := by
  simp [isPlain, and_assoc]

theorem endOrSep_iff (t : Str) : endOrSep t = true ↔ t = [] ∨ ∃ u, t = '/' :: u := by
  cases t with
  | nil => simp [endOrSep]
  | cons c u => simp [endOrSep]

theorem takeWhile_noSep (r tail : Str) (hr : '/' ∉ r) (ht : endOrSep tail = true) :
    (r ++ tail).takeWhile (· ≠ '/') = r ∧ (r ++ tail).dropWhile (· ≠ '/') = tail := by
  induction r with
  | nil =>
    rcases (endOrSep_iff tail).mp ht with h | ⟨u, h⟩ <;> subst h <;> simp
  | cons a r ih =>
    have ha : a ≠ '/' := fun h => hr (by simp [h])
    have hr' : '/' ∉ r := fun h => hr (List.mem_cons_of_mem a h)
    have := ih hr'
    have hd : decide (a ≠ '/') = true := decide_eq_true ha
    simp only [List.cons_append, List.takeWhile_cons, List.dropWhile_cons, hd, if_true, this.1,
      this.2, and_self]

/-- A plain segment is copied to the buffer, after a slash where one is due. -/
theorem run_plain (rooted : Bool) {s tail : Str} (hs : isPlain s = true)
    (ht : endOrSep tail = true) (out : Str) (dotdot : Nat) :
    run rooted (s ++ tail) out dotdot = run rooted tail (addSep rooted out ++ s) dotdot := by
  obtain ⟨hne, hsep, hdot, hdd⟩ := (isPlain_iff s).mp hs
  cases s with
  | nil => exact absurd rfl hne
  | cons c r =>
    have hc : c ≠ '/' := fun h => hsep (by simp [h])
    have hr : '/' ∉ r := fun h => hsep (List.mem_cons_of_mem c h)
    have htd := takeWhile_noSep r tail hr ht
    have h1 : ¬ (c = '.' ∧ endOrSep (r ++ tail) = true) := by
      rintro ⟨h, he⟩
      cases r with
      | nil => exact hdot (by rw [h])
      | cons d r' =>
        simp [endOrSep] at he
        exact hr (by simp [he])
    have h2 : ¬ (c = '.' ∧ (r ++ tail).head? = some '.' ∧ endOrSep (r ++ tail).tail = true) := by
      rintro ⟨h, hh, he⟩
      cases r with
      | nil =>
        rcases (endOrSep_iff tail).mp ht with h' | ⟨u, h'⟩ <;> subst h' <;> simp at hh
      | cons d r' =>
        simp at hh
        cases r' with
        | nil => exact hdd (by rw [h, hh])
        | cons e r'' =>
          simp [endOrSep] at he
          exact hr (by simp [he])
    rw [List.cons_append, run_cons]
    simp only [next, hc, h1, h2, if_false, htd.1, htd.2]

theorem joinSegs_snoc (pre : List Str) (s : Str) (hpre : pre ≠ []) :
    joinSegs (pre ++ [s]) = joinSegs pre ++ '/' :: s := by
  induction pre with
  | nil => exact absurd rfl hpre
  | cons a pre ih =>
    cases pre with
    | nil => simp [joinSegs]
    | cons b pre' =>
      have := ih (by simp)
      simp only [List.cons_append] at this ⊢
      simp [joinSegs, this]

theorem joinSegs_ne_nil {segs : List Str} (hne : segs ≠ []) (hp : ∀ s ∈ segs, isPlain s = true) :
    joinSegs segs ≠ [] := by
  cases segs with
  | nil => exact absurd rfl hne
  | cons a rest =>
    have ha := ((isPlain_iff a).mp (hp a (by simp))).1
    cases rest with
    | nil => simpa [joinSegs] using ha
    | cons b rest' => simp [joinSegs, ha]

theorem addSep_absPath (pre : List Str) (s : Str) (hp : ∀ t ∈ pre, isPlain t = true) :
    addSep true (absPath pre) ++ s = absPath (pre ++ [s]) := by
  by_cases hpre : pre = []
  · subst hpre
    simp [addSep, absPath, joinSegs]
  · have hj := joinSegs_ne_nil hpre hp
    have hl : (joinSegs pre).length ≠ 0 := fun h => hj (List.length_eq_zero.mp h)
    simp [addSep, absPath, joinSegs_snoc pre s hpre, hl]

/-- The loop of `Clean` on plain segments joined with slashes: the buffer, an
absolute path, grows by these segments. -/
theorem run_segs (segs pre : List Str) (tail : Str) (dotdot : Nat)
    (hs : ∀ s ∈ segs, isPlain s = true) (hp : ∀ t ∈ pre, isPlain t = true)
    (ht : endOrSep tail = true) :
    run true (joinSegs segs ++ tail) (absPath pre) dotdot =
      run true tail (absPath (pre ++ segs)) dotdot := by
  induction segs generalizing pre with
  | nil => simp [joinSegs]
  | cons s rest ih =>
    have hs1 : isPlain s = true := hs s (by simp)
    have hrest : ∀ t ∈ rest, isPlain t = true := fun t h => hs t (List.mem_cons_of_mem s h)
    have hp' : ∀ t ∈ pre ++ [s], isPlain t = true := by
      intro t h
      rcases List.mem_append.mp h with h | h
      · exact hp t h
      · simp at h; rw [h]; exact hs1
    cases rest with
    | nil =>
      simp only [joinSegs]
      rw [run_plain true hs1 ht, addSep_absPath pre s hp]
    | cons t rest' =>
      simp only [joinSegs, List.append_assoc, List.cons_append]
      rw [run_plain true hs1 (by simp [endOrSep]), addSep_absPath pre s hp, run_sep]
      have := ih (pre ++ [s]) hrest hp'
      simpa using this

theorem backtrackLoop_seg (dotdot : Nat) (t A : Str) (last : Char) (hl : last ≠ '/')
    (ht : '/' ∉ t) (hA : dotdot < A.length + 1) :
    backtrackLoop dotdot last (t ++ '/' :: A) = A := by
  induction t generalizing last with
  | nil =>
    have hlen : dotdot < ('/' :: A).length := by simpa using hA
    rw [List.nil_append, backtrackLoop, if_pos ⟨hlen, hl⟩]
    cases A with
    | nil => rfl
    | cons c cs =>
      rw [backtrackLoop, if_neg]
      rintro ⟨_, h⟩
      exact h rfl
  | cons a t ih =>
    have ha : a ≠ '/' := fun h => ht (by simp [h])
    have ht' : '/' ∉ t := fun h => ht (List.mem_cons_of_mem a h)
    have hlen : dotdot < (a :: (t ++ '/' :: A)).length := by
      simp only [List.length_cons, List.length_append]; omega
    rw [List.cons_append, backtrackLoop, if_pos ⟨hlen, hl⟩]
    exact ih a ha ht'

theorem backtrackLoop_root (t : Str) (last : Char) (hl : last ≠ '/') (ht : '/' ∉ t) :
    backtrackLoop 1 last (t ++ ['/']) = ['/'] := by
  induction t generalizing last with
  | nil =>
    rw [List.nil_append, backtrackLoop, if_neg]
    rintro ⟨h, _⟩
    simp at h
  | cons a t ih =>
    have ha : a ≠ '/' := fun h => ht (by simp [h])
    have ht' : '/' ∉ t := fun h => ht (List.mem_cons_of_mem a h)
    have hlen : 1 < (a :: (t ++ ['/'])).length := by simp
    rw [List.cons_append, backtrackLoop, if_pos ⟨hlen, hl⟩]
    exact ih a ha ht'

/-- Backtracking from an absolute path drops its last segment. -/
theorem backtrack_absPath (init : List Str) (s : Str) (hs : isPlain s = true) :
    backtrack 1 (absPath (init ++ [s])) = absPath init := by
  obtain ⟨hne, hsep, _, _⟩ := (isPlain_iff s).mp hs
  have hrev : s.reverse ≠ [] := by simpa using hne
  have hsep' : '/' ∉ s.reverse := by simpa using hsep
  cases hr : s.reverse with
  | nil => exact absurd hr hrev
  | cons c t =>
    rw [hr] at hsep'
    have hc : c ≠ '/' := fun h => hsep' (by simp [h])
    have ht : '/' ∉ t := fun h => hsep' (List.mem_cons_of_mem c h)
    by_cases hinit : init = []
    · subst hinit
      have : (absPath ([] ++ [s])).reverse = c :: (t ++ ['/']) := by
        simp [absPath, joinSegs, hr]
      simp only [backtrack, this]
      rw [backtrackLoop_root t c hc ht]
      simp [absPath, joinSegs]
    · have : (absPath (init ++ [s])).reverse = c :: (t ++ '/' :: (absPath init).reverse) := by
        simp [absPath, joinSegs_snoc init s hinit, hr]
      simp only [backtrack, this]
      rw [backtrackLoop_seg 1 t _ c hc ht (by simp [absPath])]
      simp

theorem Clean_rooted (r : Str) :
    Clean ('/' :: r) = if (run true r ['/'] 1).length = 0 then ['.'] else run true r ['/'] 1 := by
  simp [Clean, run]

theorem Clean_unrooted (c : Char) (r : Str) (hc : c ≠ '/') :
    Clean (c :: r) =
      if (run false (c :: r) [] 0).length = 0 then ['.'] else run false (c :: r) [] 0 := by
  simp [Clean, run, hc]

/-- An absolute path of plain segments is clean. -/
theorem Clean_absPath (segs : List Str) (hs : ∀ s ∈ segs, isPlain s = true) :
    Clean (absPath segs) = absPath segs := by
  have h := run_segs segs [] [] 1 hs (by simp) (by simp [endOrSep])
  simp only [List.append_nil, List.nil_append, run_nil] at h
  have h0 : absPath [] = ['/'] := rfl
  rw [h0] at h
  rw [absPath, Clean_rooted, h]
  simp [absPath]

/-- Going up from an absolute path of plain segments drops the last segment. -/
theorem Join_up (segs : List Str) (hne : segs ≠ []) (hs : ∀ s ∈ segs, isPlain s = true) :
    Join (absPath segs) "..".toList = absPath segs.dropLast := by
  have hd : "..".toList = ['.', '.'] := by decide
  have h := run_segs segs [] ['/', '.', '.'] 1 hs (by simp) (by simp [endOrSep])
  have h0 : absPath [] = ['/'] := rfl
  rw [h0, List.nil_append, run_sep, run_cons] at h
  have hlen : 1 < (absPath segs).length := by
    have := joinSegs_ne_nil hne hs
    have : (joinSegs segs).length ≠ 0 := fun h => this (List.length_eq_zero.mp h)
    simp only [absPath, List.length_cons]; omega
  have hn : next true '.' ['.'] (absPath segs) 1 = ([], backtrack 1 (absPath segs), 1) := by
    simp [next, endOrSep, hlen]
  rw [hn] at h
  simp only [run_nil] at h
  have hsplit : segs = segs.dropLast ++ [segs.getLast hne] :=
    (List.dropLast_append_getLast hne).symm
  have hb : backtrack 1 (absPath segs) = absPath segs.dropLast := by
    conv_lhs => rw [hsplit]
    exact backtrack_absPath _ _ (hs _ (List.getLast_mem hne))
  rw [hb] at h
  have ha : absPath segs ≠ [] := by simp [absPath]
  rw [Join, if_pos ha, hd]
  show Clean ('/' :: (joinSegs segs ++ ['/', '.', '.'])) = _
  rw [Clean_rooted, h]
  simp [absPath]

theorem endOrSep_append (r t : Str) : endOrSep (r ++ '/' :: t) = endOrSep r := by
  cases r <;> simp [endOrSep]

theorem takeWhile_append_sep (r t : Str) :
    (r ++ '/' :: t).takeWhile (· ≠ '/') = r.takeWhile (· ≠ '/') ∧
      (r ++ '/' :: t).dropWhile (· ≠ '/') = r.dropWhile (· ≠ '/') ++ '/' :: t := by
  induction r with
  | nil => simp
  | cons a r ih =>
    by_cases ha : a = '/'
    · subst ha; simp
    · have hd : decide (a ≠ '/') = true := decide_eq_true ha
      simp only [List.cons_append, List.takeWhile_cons, List.dropWhile_cons, hd, if_true, ih.1,
        ih.2, and_self]

/-- One turn of the loop does not look past the next separator. -/
theorem next_append (rooted : Bool) (c : Char) (r t out : Str) (dotdot : Nat) :
    next rooted c (r ++ '/' :: t) out dotdot =
      ((next rooted c r out dotdot).1 ++ '/' :: t, (next rooted c r out dotdot).2.1,
        (next rooted c r out dotdot).2.2) := by
  have h1 := endOrSep_append r t
  have h2 := takeWhile_append_sep r t
  cases r with
  | nil =>
    simp only [next, List.nil_append, endOrSep]
    split_ifs <;> simp_all
  | cons d r' =>
    have h3 := endOrSep_append r' t
    simp only [next, List.cons_append, List.head?_cons, List.tail_cons, h3, h2.1, h2.2] at h1 h2 ⊢
    simp only [endOrSep]
    split_ifs <;> simp_all

/-- Cleaning `xs/name` for a plain `name` is cleaning `xs` and then appending
`name` as one more element. -/
theorem run_append_name (rooted : Bool) {name : Str} (hn : isPlain name = true) :
    ∀ (n : Nat) (xs out : Str) (dotdot : Nat), xs.length ≤ n →
      run rooted (xs ++ '/' :: name) out dotdot = addSep rooted (run rooted xs out dotdot) ++ name := by
  intro n
  induction n with
  | zero =>
    intro xs out dotdot hx
    have : xs = [] := List.length_eq_zero.mp (Nat.le_zero.mp hx)
    subst this
    have h := @run_plain rooted name [] hn (by simp [endOrSep]) out dotdot
    simp only [List.append_nil] at h
    rw [List.nil_append, run_sep, h, run_nil, run_nil]
  | succ n ih =>
    intro xs out dotdot hx
    cases xs with
    | nil =>
      have h := @run_plain rooted name [] hn (by simp [endOrSep]) out dotdot
      simp only [List.append_nil] at h
      rw [List.nil_append, run_sep, h, run_nil, run_nil]
    | cons c r =>
      rw [List.cons_append, run_cons, next_append, run_cons]
      have hl := next_length rooted c r out dotdot
      simp only [List.length_cons] at hx
      exact ih _ _ _ (by omega)

/-- Entering a plain folder from a clean base other than `/` and `.`. -/
theorem Join_in (base name : Str) (hc : Clean base = base) (hroot : base ≠ ['/'])
    (hdot : base ≠ ['.']) (hn : isPlain name = true) :
    Join base name = base ++ '/' :: name := by
  cases base with
  | nil => simp [Clean] at hc
  | cons c r =>
    rw [Join, if_pos (by simp), List.cons_append]
    by_cases hsep : c = '/'
    · subst hsep
      rw [Clean_rooted] at hc
      have hout : run true r ['/'] 1 = '/' :: r := by
        by_cases h0 : (run true r ['/'] 1).length = 0
        · rw [if_pos h0] at hc; simp at hc
        · rw [if_neg h0] at hc; exact hc
      have hr : r ≠ [] := fun h => hroot (by rw [h])
      have hlen : r.length ≠ 0 := fun h => hr (List.length_eq_zero.mp h)
      rw [Clean_rooted, run_append_name true hn r.length r ['/'] 1 (le_refl _), hout]
      simp [addSep, hlen]
    · rw [Clean_unrooted c r hsep] at hc
      have hout : run false (c :: r) [] 0 = c :: r := by
        by_cases h0 : (run false (c :: r) [] 0).length = 0
        · rw [if_pos h0] at hc; exact absurd hc.symm hdot
        · rw [if_neg h0] at hc; exact hc
      have hcl := Clean_unrooted c (r ++ '/' :: name) hsep
      rw [← List.cons_append, run_append_name false hn (c :: r).length (c :: r) [] 0 (le_refl _),
        hout] at hcl
      rw [List.cons_append] at hcl
      rw [hcl]
      simp [addSep]

theorem takeWhile_nil_endOrSep (r : Str) (h : r.takeWhile (· ≠ '/') = []) : endOrSep r = true := by
  cases r with
  | nil => rfl
  | cons d r' =>
    by_cases hd : d = '/'
    · simp [endOrSep, hd]
    · have hd' : decide (d ≠ '/') = true := decide_eq_true hd
      simp only [List.takeWhile_cons, hd', if_true] at h
      exact absurd h (by simp)

/-- The element the loop of `Clean` copies in its last case is a plain segment. -/
theorem isPlain_element (c : Char) (r : Str) (hc : c ≠ '/')
    (h1 : ¬ (c = '.' ∧ endOrSep r = true))
    (h2 : ¬ (c = '.' ∧ r.head? = some '.' ∧ endOrSep r.tail = true)) :
    isPlain (c :: r.takeWhile (· ≠ '/')) = true := by
  rw [isPlain_iff]
  have hmem : '/' ∉ r.takeWhile (· ≠ '/') := by
    intro h
    have := List.mem_takeWhile_imp h
    simp at this
  refine ⟨by simp, ?_, ?_, ?_⟩
  · intro h
    rcases List.mem_cons.mp h with h | h
    · exact hc h.symm
    · exact hmem h
  · intro h
    simp only [List.cons.injEq] at h
    exact h1 ⟨h.1, takeWhile_nil_endOrSep r h.2⟩
  · intro h
    simp only [List.cons.injEq] at h
    obtain ⟨hc', ht⟩ := h
    cases r with
    | nil => simp at ht
    | cons d r' =>
      by_cases hd : d = '/'
      · simp [hd] at ht
      · have hd' : decide (d ≠ '/') = true := decide_eq_true hd
        simp only [List.takeWhile_cons, hd', if_true, List.cons.injEq] at ht
        exact h2 ⟨hc', by simp [ht.1], takeWhile_nil_endOrSep r' ht.2⟩

/-- One turn of the loop on a rooted path keeps the buffer an absolute path of
plain segments, and `dotdot` at 1. -/
theorem next_rooted (c : Char) (r : Str) (pre : List Str) (hp : ∀ t ∈ pre, isPlain t = true) :
    ∃ pre' : List Str, (∀ t ∈ pre', isPlain t = true) ∧
      (next true c r (absPath pre) 1).2.1 = absPath pre' ∧
      (next true c r (absPath pre) 1).2.2 = 1 := by
  by_cases hc : c = '/'
  · exact ⟨pre, hp, by simp [next, hc], by simp [next, hc]⟩
  by_cases h1 : c = '.' ∧ endOrSep r = true
  · exact ⟨pre, hp, by simp [next, hc, h1], by simp [next, hc, h1]⟩
  by_cases h2 : c = '.' ∧ r.head? = some '.' ∧ endOrSep r.tail = true
  · by_cases hl : 1 < (absPath pre).length
    · have hne : pre ≠ [] := by
        intro h
        rw [h] at hl
        simp [absPath, joinSegs] at hl
      have hsplit : pre = pre.dropLast ++ [pre.getLast hne] :=
        (List.dropLast_append_getLast hne).symm
      have hb : backtrack 1 (absPath pre) = absPath pre.dropLast := by
        conv_lhs => rw [hsplit]
        exact backtrack_absPath _ _ (hp _ (List.getLast_mem hne))
      refine ⟨pre.dropLast, fun t ht => hp t (List.dropLast_subset pre ht), ?_, ?_⟩
      · simp only [next, if_neg hc, if_neg h1, if_pos h2, if_pos hl, hb]
      · simp only [next, if_neg hc, if_neg h1, if_pos h2, if_pos hl]
    · refine ⟨pre, hp, ?_, ?_⟩
      · simp only [next, if_neg hc, if_neg h1, if_pos h2, if_neg hl]
        simp
      · simp only [next, if_neg hc, if_neg h1, if_pos h2, if_neg hl]
        simp
  · refine ⟨pre ++ [c :: r.takeWhile (· ≠ '/')], ?_, ?_, ?_⟩
    · intro t ht
      rcases List.mem_append.mp ht with ht | ht
      · exact hp t ht
      · rw [List.mem_singleton.mp ht]
        exact isPlain_element c r hc h1 h2
    · simp only [next, if_neg hc, if_neg h1, if_neg h2]
      exact addSep_absPath pre _ hp
    · simp only [next, if_neg hc, if_neg h1, if_neg h2]

theorem run_rooted (n : Nat) : ∀ (path : Str) (pre : List Str), path.length ≤ n →
    (∀ t ∈ pre, isPlain t = true) →
    ∃ segs : List Str, (∀ t ∈ segs, isPlain t = true) ∧
      run true path (absPath pre) 1 = absPath segs := by
  induction n with
  | zero =>
    intro path pre hlen hp
    have : path = [] := List.length_eq_zero.mp (Nat.le_zero.mp hlen)
    subst this
    exact ⟨pre, hp, run_nil _ _ _⟩
  | succ n ih =>
    intro path pre hlen hp
    cases path with
    | nil => exact ⟨pre, hp, run_nil _ _ _⟩
    | cons c r =>
      obtain ⟨pre', hp', hout, hdd⟩ := next_rooted c r pre hp
      have hl := next_length true c r (absPath pre) 1
      simp only [List.length_cons] at hlen
      rw [run_cons, hout, hdd]
      exact ih _ pre' (by omega) hp'

/-- A clean absolute path is the root followed by plain segments joined with
the separator. -/
theorem clean_absolute (p : Str) (hc : Clean p = p) (habs : p.head? = some '/') :
    ∃ segs : List Str, (∀ t ∈ segs, isPlain t = true) ∧ p = absPath segs := by
  cases p with
  | nil => simp at habs
  | cons c r =>
    simp only [List.head?_cons, Option.some.injEq] at habs
    subst habs
    obtain ⟨segs, hs, hrun⟩ := run_rooted r.length r [] (le_refl _) (by simp)
    have h0 : absPath [] = ['/'] := rfl
    rw [h0] at hrun
    rw [Clean_rooted, hrun] at hc
    have hne : (absPath segs).length ≠ 0 := by simp [absPath]
    rw [if_neg hne] at hc
    exact ⟨segs, hs, hc.symm⟩

/-! ## Lemmas: the handler -/

theorem matchAny_map_some (fold : Char → Char) (path : Str) (l : List Regexp) :
    matchAny fold path (l.map some) = some (l.any (fun m => m.Match fold path)) := by
  induction l with
  | nil => rfl
  | cons m ms ih =>
    by_cases h : m.Match fold path = true
    · simp [matchAny, h]
    · have h' : m.Match fold path = false := by simpa using h
      simp [matchAny, h', ih]

theorem evaluate_map_some (fold : Char → Char) (path : Str) (avoid allow : List Regexp) :
    evaluate fold path (avoid.map some) (allow.map some) =
      some (avoid.any (fun m => m.Match fold path),
        allow.length == 0 || allow.any (fun m => m.Match fold path)) := by
  simp [evaluate, matchAny_map_some]

theorem any_eq_true_iff_Avoided (fold : Char → Char) (path : Str) (avoid : List Regexp) :
    avoid.any (fun m => m.Match fold path) = true ↔ Avoided fold path avoid := by
  simp [Avoided, List.any_eq_true]

theorem allowed_flag_iff (fold : Char → Char) (path : Str) (allow : List Regexp) :
    (allow.length == 0 || allow.any (fun m => m.Match fold path)) = true ↔
      Allowed fold path allow := by
  cases allow with
  | nil => simp [Allowed]
  | cons m ms => simp [Allowed, List.any_eq_true]

/-- A request other than a download goes straight to the page. -/
theorem handleIndex_browse (s : Server) (r : Request) (hop : r.op ≠ "download".toList)
    (a b : Bool)
    (he : evaluate s.fold (resolve s r) s.avoidedPaths s.allowedPaths = some (a, b)) :
    handleIndex s r = .done (renderPage s r (resolve s r) a b (fun _ => []) []) := by
  simp only [handleIndex, he]
  rw [if_neg]
  intro h
  exact hop h.1

theorem renderPage_ok (s : Server) (r : Request) (path : Str) (messages : Messages)
    (opened : List Str) (entries : List FileInfo) (hread : s.readDir path = .ok entries) :
    renderPage s r path false true messages opened =
      { opened := opened, listed := [path], header := [], body := none,
        page := some (
          { Download := some s.DownloadEnabled,
            Order := some (if r.o ≠ "name".toList ∧ r.o ≠ "date".toList ∧ r.o ≠ "size".toList
              then "name".toList else r.o),
            OrderType := some (if r.ot = "z".toList then "a".toList else "z".toList),
            Dir := some path,
            Files := some (sortSlice (less
              (if r.o ≠ "name".toList ∧ r.o ≠ "date".toList ∧ r.o ≠ "size".toList
                then "name".toList else r.o)
              (if r.ot = "z".toList then "a".toList else "z".toList)) entries) },
          messages) } := by
  simp [renderPage, hread]

theorem keyLE_norm (o : Str) (p q : FileInfo) :
    keyLE (if o ≠ "name".toList ∧ o ≠ "date".toList ∧ o ≠ "size".toList then "name".toList else o)
      p q ↔ keyLE o p q := by
  by_cases h : o ≠ "name".toList ∧ o ≠ "date".toList ∧ o ≠ "size".toList
  · have h1 : "name".toList ≠ "date".toList := by decide
    have h2 : "name".toList ≠ "size".toList := by decide
    rw [if_pos h]
    unfold keyLE
    rw [if_neg h1, if_neg h2, if_neg h.2.1, if_neg h.2.2]
  · rw [if_neg h]

theorem download_sent_body (s : Server) (r : Request) (path : Str) (messages : Messages)
    (out : Outcome) (h : download s r path messages = .sent out) : out.body ≠ none := by
  unfold download at h
  by_cases h1 : (!s.DownloadEnabled) = true
  · rw [if_pos h1] at h
    cases h
  · rw [if_neg h1] at h
    by_cases h2 : r.id ≠ []
    · rw [if_pos h2] at h
      simp only at h
      cases ho : s.openFile (Join path r.id) with
      | error err =>
        rw [ho] at h
        cases h
      | ok f =>
        rw [ho] at h
        simp only at h
        cases hs : f.stat with
        | error err =>
          rw [hs] at h
          cases h
        | ok size =>
          rw [hs] at h
          simp only [DownloadStep.sent.injEq] at h
          rw [← h]
          simp
    · rw [if_neg h2] at h
      cases h

/-- A run that passes the policy and streams no file renders the page of the
listing, whatever the operation. -/
theorem handleIndex_page (s : Server) (r : Request)
    (hpol : evaluate s.fold (resolve s r) s.avoidedPaths s.allowedPaths = some (false, true))
    (hbody : (handleIndex s r).body = none) :
    ∃ messages opened,
      handleIndex s r = .done (renderPage s r (resolve s r) false true messages opened) := by
  by_cases hop : r.op = "download".toList
  · have h : handleIndex s r =
        match download s r (resolve s r) (fun _ => []) with
        | .sent out => .done out
        | .goOn messages opened =>
          .done (renderPage s r (resolve s r) false true messages opened) := by
      simp only [handleIndex, hpol]
      rw [if_pos (by simp [hop])]
    rw [h] at hbody ⊢
    cases hd : download s r (resolve s r) (fun _ => []) with
    | sent out =>
      rw [hd] at hbody
      exact absurd hbody (download_sent_body s r _ _ out hd)
    | goOn messages opened => exact ⟨messages, opened, rfl⟩
  · exact ⟨_, _, handleIndex_browse s r hop _ _ hpol⟩

/-! ## The claims -/

/-- C2. For every path and every avoid list, the handler's access evaluation
sets the allowed flag to true exactly when the compiled allow list is empty or
one of its matchers matches the path; with an empty allow list every path is
allowed. -/
theorem evaluate_allowed_iff (fold : Char → Char) (path : Str) (avoid allow : List Regexp) :
    (∃ pathAvoided pathAllowed,
        evaluate fold path (avoid.map some) (allow.map some) = some (pathAvoided, pathAllowed) ∧
        (pathAllowed = true ↔ (allow = [] ∨ ∃ m ∈ allow, m.Match fold path = true))) ∧
      (∃ pathAvoided, evaluate fold path (avoid.map some) [] = some (pathAvoided, true)) := by
  refine ⟨⟨_, _, evaluate_map_some fold path avoid allow, ?_⟩, ?_⟩
  · exact allowed_flag_iff fold path allow
  · exact ⟨_, evaluate_map_some fold path avoid []⟩

/-- C3, the code at a failing input. The compilation loop of `main` keeps one
entry per rule, nil for a rule that failed to compile: with `twoRules`, whose
second rule is rejected, the list holds the matcher of the first rule and a
nil entry, and a request for `/home` ends in the panic of the nil entry. -/
theorem compilePaths_keeps_failed_rule :
    (∀ (tooLarge : Str → Bool) (rules : List Path),
        compilePaths tooLarge rules [] = rules.map (fun v => Compile tooLarge (ruleExpr v))) ∧
      Compile smallLimit (ruleExpr ⟨"long".toList, "/a/very/long/pattern".toList⟩) = none ∧
      compilePaths smallLimit twoRules [] = [some ⟨"/tmp/*".toList.map toNode⟩, none] ∧
      evaluate demoBroken.fold "/home".toList demoBroken.avoidedPaths demoBroken.allowedPaths
        = none ∧
      (handleIndex demoBroken ⟨"/home".toList, [], [], [], [], []⟩).panicked = true := by
  refine ⟨fun tooLarge rules => ?_, by decide, by decide, by decide, by decide⟩
  simpa using compilePaths_eq tooLarge rules []

/-- C4, the code at a failing input. With the avoid rule `/secret*`, the
download request `dir=/public`, `id=../secret/x` opens and streams
`/secret/x`, although the access evaluation of its directory `/secret` gives
`avoided = true`. -/
theorem download_escapes_policy :
    (handleIndex demo ⟨"/public".toList, "download".toList, [], "../secret/x".toList, [], []⟩).opened
        = ["/secret/x".toList] ∧
      (handleIndex demo ⟨"/public".toList, "download".toList, [], "../secret/x".toList, [], []⟩).body
        = some "/secret/x".toList ∧
      evaluate demo.fold "/secret".toList demo.avoidedPaths demo.allowedPaths = some (true, true) ∧
      evaluate demo.fold "/public".toList demo.avoidedPaths demo.allowedPaths = some (false, true) := by
  refine ⟨by decide, by decide, by decide, by decide⟩

/-- C7. A download request on a path that passes the access policy, with
downloads disabled: no file is opened, no header and no byte is written, and
the page is rendered with the message of the refusal among its `Alerts`. -/
theorem download_disabled_alert (s : Server) (r : Request) (hop : r.op = "download".toList)
    (hpol : evaluate s.fold (resolve s r) s.avoidedPaths s.allowedPaths = some (false, true))
    (hoff : s.DownloadEnabled = false) :
    (handleIndex s r).opened = [] ∧ (handleIndex s r).header = [] ∧
      (handleIndex s r).body = none ∧ (handleIndex s r).page.isSome = true ∧
      msgDownloadOff ∈ (handleIndex s r).alerts := by
  have h : handleIndex s r = .done (renderPage s r (resolve s r) false true
      (Messages.set (fun _ => []) "Alerts".toList ([] ++ [msgDownloadOff])) []) := by
    simp only [handleIndex, hpol]
    rw [if_pos (by simp [hop])]
    simp [download, hoff]
  rw [h]
  cases hread : s.readDir (resolve s r) with
  | error err =>
    have hne : ¬ "Alerts".toList = "Errors".toList := by decide
    simp [renderPage, hread, Result.opened, Result.header, Result.body, Result.page,
      Result.alerts, Messages.set, hne]
  | ok entries =>
    simp [renderPage, hread, Result.opened, Result.header, Result.body, Result.page,
      Result.alerts, Messages.set]

/-- C7 at a request: the server `demoOff`, download of `x` in `/pub`. -/
theorem download_disabled_alert_witness :
    (handleIndex demoOff ⟨"/pub".toList, "download".toList, [], "x".toList, [], []⟩).opened = [] ∧
      (handleIndex demoOff ⟨"/pub".toList, "download".toList, [], "x".toList, [], []⟩).header = [] ∧
      (handleIndex demoOff ⟨"/pub".toList, "download".toList, [], "x".toList, [], []⟩).body = none ∧
      (handleIndex demoOff ⟨"/pub".toList, "download".toList, [], "x".toList, [], []⟩).page.isSome
        = true ∧
      msgDownloadOff ∈
        (handleIndex demoOff ⟨"/pub".toList, "download".toList, [], "x".toList, [], []⟩).alerts :=
  download_disabled_alert demoOff ⟨"/pub".toList, "download".toList, [], "x".toList, [], []⟩
    (by decide) (by decide) (by decide)

/-- C1, the claim as stated fails: on a server without rules whose directory
cannot be read, the browse request for `/gone` passes the policy and the
directory is handed to `ReadDir`, yet no `Files` entry reaches the template. -/
theorem browse_unreadable_no_files :
    ¬ Avoided unreadable.fold "/gone".toList [] ∧ Allowed unreadable.fold "/gone".toList [] ∧
      (handleIndex unreadable ⟨"/gone".toList, [], [], [], [], []⟩).listed = ["/gone".toList] ∧
      (handleIndex unreadable ⟨"/gone".toList, [], [], [], [], []⟩).files = none ∧
      (handleIndex unreadable ⟨"/gone".toList, [], [], [], [], []⟩).alerts = [] := by
  refine ⟨?_, Or.inl rfl, by decide, by decide, by decide⟩
  rintro ⟨m, hm, _⟩
  cases hm

/-- C1, amended. For a browse request (op absent, `in` or `up`) and lists of
compiled matchers: the resolved path is handed to `ReadDir` exactly when no
avoid matcher matches it and the allow list is empty or matches it; a `Files`
entry reaches the template exactly when, besides, the directory can be read;
and a path that is avoided or not allowed gives an `Alerts` message, no `Files`
entry and no call of `ReadDir`. -/
theorem browse_lists_iff_accessible (s : Server) (avoid allow : List Regexp) (r : Request)
    (hav : s.avoidedPaths = avoid.map some) (hal : s.allowedPaths = allow.map some)
    (hop : r.op = [] ∨ r.op = "in".toList ∨ r.op = "up".toList) :
    ((handleIndex s r).listed = [resolve s r] ↔
        (¬ Avoided s.fold (resolve s r) avoid ∧ Allowed s.fold (resolve s r) allow)) ∧
      ((handleIndex s r).files.isSome = true ↔
        ((¬ Avoided s.fold (resolve s r) avoid ∧ Allowed s.fold (resolve s r) allow) ∧
          ∃ entries, s.readDir (resolve s r) = .ok entries)) ∧
      (¬ (¬ Avoided s.fold (resolve s r) avoid ∧ Allowed s.fold (resolve s r) allow) →
        (handleIndex s r).alerts ≠ [] ∧ (handleIndex s r).files = none ∧
          (handleIndex s r).listed = []) := by
  have hop' : r.op ≠ "download".toList := by
    rcases hop with h | h | h <;> rw [h] <;> decide
  have he := evaluate_map_some s.fold (resolve s r) avoid allow
  rw [← hav, ← hal] at he
  rw [handleIndex_browse s r hop' _ _ he]
  have ha := any_eq_true_iff_Avoided s.fold (resolve s r) avoid
  have hb := allowed_flag_iff s.fold (resolve s r) allow
  generalize avoid.any (fun m => m.Match s.fold (resolve s r)) = a at ha
  generalize (allow.length == 0 || allow.any (fun m => m.Match s.fold (resolve s r))) = b at hb
  cases a
  · have hna : ¬ Avoided s.fold (resolve s r) avoid := fun h => Bool.noConfusion (ha.mpr h)
    cases b
    · have hnb : ¬ Allowed s.fold (resolve s r) allow := fun h => Bool.noConfusion (hb.mpr h)
      simp [renderPage, Result.listed, Result.files, Result.alerts, Result.page, Messages.set,
        hnb]
    · have hb' : Allowed s.fold (resolve s r) allow := hb.mp rfl
      cases hread : s.readDir (resolve s r) with
      | error err =>
        simp [renderPage, Result.listed, Result.files, Result.alerts, Result.page, hna, hb',
          hread]
      | ok entries =>
        simp [renderPage, Result.listed, Result.files, Result.alerts, Result.page, hna, hb',
          hread]
  · have ha' : Avoided s.fold (resolve s r) avoid := ha.mp rfl
    simp [renderPage, Result.listed, Result.files, Result.alerts, Result.page, Messages.set, ha']

/-- C1 at scenario A: the avoid rule `/secret*` and the request `dir=/secret/x`. -/
theorem browse_lists_iff_accessible_witness :
    (handleIndex demo ⟨"/secret/x".toList, [], [], [], [], []⟩).alerts ≠ [] ∧
      (handleIndex demo ⟨"/secret/x".toList, [], [], [], [], []⟩).files = none ∧
      (handleIndex demo ⟨"/secret/x".toList, [], [], [], [], []⟩).listed = [] :=
  (browse_lists_iff_accessible demo [⟨"/secret*".toList.map toNode⟩] []
    ⟨"/secret/x".toList, [], [], [], [], []⟩ (by decide) (by decide) (Or.inl rfl)).2.2
    (fun h => h.1 ⟨⟨"/secret*".toList.map toNode⟩, by simp, by decide⟩)

/-- C5, the claim as stated fails: `a`, newline, `b` is an expansion of the
pattern `a*b` (the `*` replaced by a newline), yet the matcher compiled from
`a*b` does not match it and the path is not marked avoided. -/
theorem star_stops_at_newline :
    Expands (fun _ => True) "a*b".toList "a\nb".toList ∧
      "a\nb".toList <:+: "a\nb".toList ∧
      Compile (fun _ => false) (ruleExpr ⟨[], "a*b".toList⟩) =
        some ⟨[Node.lit 'a', Node.dotStar, Node.lit 'b']⟩ ∧
      Regexp.Match asciiFold ⟨[Node.lit 'a', Node.dotStar, Node.lit 'b']⟩ "a\nb".toList = false ∧
      evaluate asciiFold "a\nb".toList [Compile (fun _ => false) (ruleExpr ⟨[], "a*b".toList⟩)] []
        = some (false, true) := by
  refine ⟨?_, List.infix_refl _, by decide, by decide, by decide⟩
  have h : "a\nb".toList = 'a' :: (['\n'] ++ ['b']) := by decide
  have hp : "a*b".toList = 'a' :: '*' :: ['b'] := by decide
  rw [h, hp]
  exact Expands.lit (by decide)
    (Expands.star ['\n'] (fun _ _ => trivial) (Expands.lit (by decide) Expands.nil))

/-- C5, amended. For every rule and every path that contains a substring
obtained from the pattern by replacing each `*` with a run of characters other
than newline and keeping every other character, the matcher compiled from the
rule matches the path, and the access evaluation with this rule on the avoid
list marks the path avoided. -/
theorem rule_matches_expansion (tooLarge : Str → Bool) (fold : Char → Char) (v : Path)
    (re : Regexp) (p sub : Str) (hre : Compile tooLarge (ruleExpr v) = some re)
    (hexp : Expands (fun x => x ≠ '\n') v.Path sub) (hsub : sub <:+: p) :
    re.Match fold p = true ∧
      ∀ allow : List Regexp, ∃ pathAllowed,
        evaluate fold p [some re] (allow.map some) = some (true, pathAllowed) := by
  have hm : re.Match fold p = true := by
    obtain ⟨pre, post, hp⟩ := hsub
    rw [Compile_some hre, ← hp, List.append_assoc]
    exact searchFrom_append pre _ (matchHere_expands fold hexp post)
  refine ⟨hm, fun allow => ?_⟩
  have h := evaluate_map_some fold p [re] allow
  simp only [List.map_cons, List.map_nil, List.any_cons, List.any_nil, hm, Bool.or_false] at h
  exact ⟨_, h⟩

/-- C5 at the pattern `/tmp/*` and the path `/tmp/anything/here`. -/
theorem rule_matches_expansion_witness :
    Regexp.Match asciiFold ⟨"/tmp/*".toList.map toNode⟩ "/tmp/anything/here".toList = true ∧
      evaluate asciiFold "/tmp/anything/here".toList [some ⟨"/tmp/*".toList.map toNode⟩] []
        = some (true, true) :=
  have h := rule_matches_expansion (fun _ => false) asciiFold ⟨"tmp".toList, "/tmp/*".toList⟩
    ⟨"/tmp/*".toList.map toNode⟩ "/tmp/anything/here".toList "/tmp/anything/here".toList
    (by decide)
    (by
      have h : "/tmp/anything/here".toList =
          '/' :: 't' :: 'm' :: 'p' :: '/' :: ("anything/here".toList ++ []) := by decide
      have hp : "/tmp/*".toList = '/' :: 't' :: 'm' :: 'p' :: '/' :: '*' :: [] := by decide
      show Expands (fun x => x ≠ '\n') "/tmp/*".toList "/tmp/anything/here".toList
      rw [h, hp]
      exact Expands.lit (by decide) (Expands.lit (by decide) (Expands.lit (by decide)
        (Expands.lit (by decide) (Expands.lit (by decide)
          (Expands.star _ (by decide) Expands.nil))))))
    (List.infix_refl _)
  ⟨h.1, by decide⟩

/-- C6. Matching is case-insensitive. Under the folding table of the library
(`FoldTable`), a matcher compiled from a rule gives the same result on two
paths that differ only in the case of their letters; two rules whose patterns
differ only in case match the same paths; and the rule `/reports` marks the
path `/Reports` avoided. -/
theorem match_case_insensitive (fold : Char → Char) (ht : FoldTable fold)
    (tooLarge : Str → Bool) :
    (∀ (v : Path) (re : Regexp) (a b : Str), Compile tooLarge (ruleExpr v) = some re →
        SameCase fold a b → re.Match fold a = re.Match fold b) ∧
      (∀ (v w : Path) (re₁ re₂ : Regexp), SameCase fold v.Path w.Path →
        Compile tooLarge (ruleExpr v) = some re₁ → Compile tooLarge (ruleExpr w) = some re₂ →
        ∀ a : Str, re₁.Match fold a = re₂.Match fold a) ∧
      (∀ re : Regexp, Compile tooLarge (ruleExpr ⟨[], "/reports".toList⟩) = some re →
        evaluate fold "/Reports".toList [some re] [] = some (true, true)) := by
  refine ⟨?_, ?_, ?_⟩
  · intro v re a b hre hab
    rw [Compile_some hre]
    exact Match_congr ht (SameCase.refl fold _) hab
  · intro v w re₁ re₂ hvw h₁ h₂ a
    rw [Compile_some h₁, Compile_some h₂]
    exact Match_congr ht hvw (SameCase.refl fold a)
  · intro re hre
    have hR : fold 'r' = fold 'R' := by
      have := ht.ascii 'R'
      have hl : 'R'.toLower = 'r' := by decide
      rwa [hl] at this
    have hsame : SameCase fold "/reports".toList "/Reports".toList := by
      have h1 : "/reports".toList = '/' :: 'r' :: "eports".toList := by decide
      have h2 : "/Reports".toList = '/' :: 'R' :: "eports".toList := by decide
      rw [h1, h2]
      exact List.Forall₂.cons rfl (List.Forall₂.cons hR (SameCase.refl fold _))
    have hself : Regexp.Match fold ⟨"/reports".toList.map toNode⟩ "/reports".toList = true := by
      have hexp : Expands (fun x => x ≠ '\n') "/reports".toList "/reports".toList := by
        have h1 : "/reports".toList = ['/', 'r', 'e', 'p', 'o', 'r', 't', 's'] := by decide
        rw [h1]
        repeat first | exact Expands.nil | refine Expands.lit (by decide) ?_
      have := searchFrom_append [] _ (matchHere_expands fold hexp [])
      simpa [Regexp.Match] using this
    have hm : re.Match fold "/Reports".toList = true := by
      rw [Compile_some hre]
      rw [← Match_congr ht (SameCase.refl fold "/reports".toList) hsame]
      exact hself
    have h := evaluate_map_some fold "/Reports".toList [re] []
    simp only [List.map_cons, List.map_nil, List.any_cons, List.any_nil, hm, Bool.or_false] at h
    simpa using h

/-- C6 at the ASCII folding table: the rule `/reports` and the path `/Reports`. -/
theorem match_case_insensitive_witness :
    FoldTable asciiFold ∧
      evaluate asciiFold "/Reports".toList
        [Compile (fun _ => false) (ruleExpr ⟨[], "/reports".toList⟩)] [] = some (true, true) :=
  ⟨foldTable_asciiFold,
    (match_case_insensitive asciiFold foldTable_asciiFold (fun _ => false)).2.2
      ⟨"/reports".toList.map toNode⟩ (by decide)⟩

/-- C8, the claim as stated fails: the root `/` is a clean base path and `c` a
plain segment name, yet entering `c` from `/` gives `/c`, not the base followed
by the separator and the name (`//c`). -/
theorem resolve_in_root :
    Clean "/".toList = "/".toList ∧ isPlain "c".toList = true ∧
      resolve demo ⟨"/".toList, "in".toList, "c".toList, [], [], []⟩ = "/c".toList ∧
      resolve demo ⟨"/".toList, "in".toList, "c".toList, [], [], []⟩
        ≠ "/".toList ++ '/' :: "c".toList := by
  refine ⟨by decide, by decide, by decide, by decide⟩

/-- C8, amended. For op `up` the target is `Join(base, "..")`: from an
absolute path of plain segments, at least one, the result is that path without
its last segment (the root for a single segment), and every clean absolute
path other than the root is such a path. For op `in` the target is
`Join(base, folder)`: from a clean base other than the root `/` and `.`, with a
plain segment name, the result is the base, the separator and the name; from
the root it is `/` followed by the name. -/
theorem resolve_up_in (s : Server) (r : Request) :
    (∀ segs : List Str, segs ≠ [] → (∀ seg ∈ segs, isPlain seg = true) →
        r.dir = absPath segs → r.op = "up".toList → resolve s r = absPath segs.dropLast) ∧
      (Clean r.dir = r.dir → r.dir.head? = some '/' → r.dir ≠ ['/'] →
        ∃ segs : List Str, segs ≠ [] ∧ (∀ seg ∈ segs, isPlain seg = true) ∧
          r.dir = absPath segs) ∧
      (Clean r.dir = r.dir → r.dir ≠ ['/'] → r.dir ≠ ['.'] → isPlain r.folder = true →
        r.op = "in".toList → resolve s r = r.dir ++ '/' :: r.folder) ∧
      (r.dir = ['/'] → isPlain r.folder = true → r.op = "in".toList →
        resolve s r = '/' :: r.folder) := by
  have hne : "in".toList ≠ "up".toList := by decide
  refine ⟨?_, ?_, ?_, ?_⟩
  · intro segs hsegs hplain hdir hop
    have hd : r.dir ≠ [] := by rw [hdir]; simp [absPath]
    have hop' : r.op ≠ "in".toList := by rw [hop]; exact hne.symm
    simp only [resolve, if_neg hd, if_neg hop', if_pos hop, hdir]
    exact Join_up segs hsegs hplain
  · intro hclean habs hroot
    obtain ⟨segs, hs, hdir⟩ := clean_absolute r.dir hclean habs
    refine ⟨segs, ?_, hs, hdir⟩
    intro h
    rw [h] at hdir
    exact hroot hdir
  · intro hclean hroot hdot hplain hop
    have hd : r.dir ≠ [] := by
      intro h
      rw [h] at hclean
      simp [Clean] at hclean
    have hop' : r.op ≠ "up".toList := by rw [hop]; exact hne
    simp only [resolve, if_neg hd, if_pos hop, if_neg hop']
    exact Join_in r.dir r.folder hclean hroot hdot hplain
  · intro hdir hplain hop
    have hd : r.dir ≠ [] := by rw [hdir]; simp
    have hop' : r.op ≠ "up".toList := by rw [hop]; exact hne
    simp only [resolve, if_neg hd, if_pos hop, if_neg hop', hdir]
    have h := @run_plain true r.folder [] hplain (by simp [endOrSep]) ['/'] 1
    simp only [List.append_nil, run_nil] at h
    have hj : Join ['/'] r.folder = Clean ('/' :: ('/' :: r.folder)) := by
      simp [Join]
    have hnil : ¬ (['/'] : Str) = [] := by simp
    rw [if_neg hnil, hj, Clean_rooted, run_sep, h]
    simp [addSep]

/-- C8 at the two requests of the specification: up from `/a/b`, `c` in `/a`. -/
theorem resolve_up_in_witness :
    resolve demo ⟨"/a/b".toList, "up".toList, [], [], [], []⟩ = "/a".toList ∧
      resolve demo ⟨"/a".toList, "in".toList, "c".toList, [], [], []⟩ = "/a/c".toList :=
  ⟨(resolve_up_in demo ⟨"/a/b".toList, "up".toList, [], [], [], []⟩).1
      ["a".toList, "b".toList] (by decide) (by decide) (by decide) (by decide),
    (resolve_up_in demo ⟨"/a".toList, "in".toList, "c".toList, [], [], []⟩).2.2.1
      (by decide) (by decide) (by decide) (by decide) (by decide)⟩

/-- C9. For every request that passes the policy, streams no file and whose
directory can be read, the entries handed to the template are a rearrangement
of the entries `ReadDir` returned, ordered by the key the request chooses with
`o` (`date`: modification time, `size`: size, anything else: name):
non-decreasing when the request asks for the ascending direction (`ot` other
than `z`), non-increasing when it asks for the descending one (`ot = z`). The
key and direction in effect are handed over in `records`. The entries `b` of
size 10 and `a` of size 20, ordered by size, are listed `b, a` ascending and
`a, b` descending. -/
theorem listing_sorted_by_key (s : Server) (r : Request) (entries : List FileInfo)
    (hpol : evaluate s.fold (resolve s r) s.avoidedPaths s.allowedPaths = some (false, true))
    (hbody : (handleIndex s r).body = none)
    (hread : s.readDir (resolve s r) = .ok entries) :
    (∃ records messages fs,
        (handleIndex s r).page = some (records, messages) ∧
        records.Files = some fs ∧ (handleIndex s r).files = some fs ∧ fs.Perm entries ∧
        records.Order = some (if r.o = "date".toList ∨ r.o = "size".toList then r.o
          else "name".toList) ∧
        records.OrderType = some (if r.ot = "z".toList then "a".toList else "z".toList) ∧
        (r.o = "date".toList →
          (r.ot ≠ "z".toList → fs.Pairwise (fun p q => p.ModTime ≤ q.ModTime)) ∧
          (r.ot = "z".toList → fs.Pairwise (fun p q => q.ModTime ≤ p.ModTime))) ∧
        (r.o = "size".toList →
          (r.ot ≠ "z".toList → fs.Pairwise (fun p q => p.Size ≤ q.Size)) ∧
          (r.ot = "z".toList → fs.Pairwise (fun p q => q.Size ≤ p.Size))) ∧
        (r.o ≠ "date".toList → r.o ≠ "size".toList →
          (r.ot ≠ "z".toList → fs.Pairwise (fun p q => p.Name ≤ q.Name)) ∧
          (r.ot = "z".toList → fs.Pairwise (fun p q => q.Name ≤ p.Name)))) ∧
      (handleIndex demo ⟨"/pub".toList, [], [], [], "size".toList, []⟩).files
        = some [⟨"b".toList, 10, 0, false⟩, ⟨"a".toList, 20, 0, false⟩] ∧
      (handleIndex demo ⟨"/pub".toList, [], [], [], "size".toList, "z".toList⟩).files
        = some [⟨"a".toList, 20, 0, false⟩, ⟨"b".toList, 10, 0, false⟩] := by
  refine ⟨?_, by decide, by decide⟩
  obtain ⟨messages, opened, hrun⟩ := handleIndex_page s r hpol hbody
  rw [hrun, renderPage_ok s r _ _ _ entries hread]
  have hza : "a".toList ≠ "z".toList := by decide
  have hsd : "size".toList ≠ "date".toList := by decide
  obtain ⟨hperm, hasc, hdesc⟩ := sortSlice_less
    (if r.o ≠ "name".toList ∧ r.o ≠ "date".toList ∧ r.o ≠ "size".toList then "name".toList
      else r.o)
    (if r.ot = "z".toList then "a".toList else "z".toList) entries
  have hup : r.ot ≠ "z".toList → ascending r.o (sortSlice (less
      (if r.o ≠ "name".toList ∧ r.o ≠ "date".toList ∧ r.o ≠ "size".toList then "name".toList
        else r.o)
      (if r.ot = "z".toList then "a".toList else "z".toList)) entries) := by
    intro h
    exact List.Pairwise.imp (fun hpq => (keyLE_norm r.o _ _).mp hpq) (hasc (by rw [if_neg h]))
  have hdown : r.ot = "z".toList → descending r.o (sortSlice (less
      (if r.o ≠ "name".toList ∧ r.o ≠ "date".toList ∧ r.o ≠ "size".toList then "name".toList
        else r.o)
      (if r.ot = "z".toList then "a".toList else "z".toList)) entries) := by
    intro h
    exact List.Pairwise.imp (fun hpq => (keyLE_norm r.o _ _).mp hpq)
      (hdesc (by rw [if_pos h]; exact hza))
  refine ⟨_, _, _, rfl, rfl, rfl, hperm, ?_, rfl, ?_, ?_, ?_⟩
  · show some (if r.o ≠ "name".toList ∧ r.o ≠ "date".toList ∧ r.o ≠ "size".toList
        then "name".toList else r.o) = _
    by_cases h : r.o = "date".toList ∨ r.o = "size".toList
    · have h' : ¬ (r.o ≠ "name".toList ∧ r.o ≠ "date".toList ∧ r.o ≠ "size".toList) := by
        rintro ⟨_, h2, h3⟩
        rcases h with h | h
        · exact h2 h
        · exact h3 h
      rw [if_neg h', if_pos h]
    · rw [if_neg h]
      by_cases h1 : r.o = "name".toList
      · have h' : ¬ (r.o ≠ "name".toList ∧ r.o ≠ "date".toList ∧ r.o ≠ "size".toList) :=
          fun hh => hh.1 h1
        rw [if_neg h', h1]
      · have h' : r.o ≠ "name".toList ∧ r.o ≠ "date".toList ∧ r.o ≠ "size".toList :=
          ⟨h1, fun h2 => h (Or.inl h2), fun h3 => h (Or.inr h3)⟩
        rw [if_pos h']
  · intro ho
    refine ⟨fun h => ?_, fun h => ?_⟩
    · have := hup h
      unfold ascending keyLE at this
      simpa only [if_pos ho] using this
    · have := hdown h
      unfold descending keyLE at this
      simpa only [if_pos ho] using this
  · intro ho
    have hod : r.o ≠ "date".toList := by rw [ho]; exact hsd
    refine ⟨fun h => ?_, fun h => ?_⟩
    · have := hup h
      unfold ascending keyLE at this
      simpa only [if_neg hod, if_pos ho] using this
    · have := hdown h
      unfold descending keyLE at this
      simpa only [if_neg hod, if_pos ho] using this
  · intro hod hos
    refine ⟨fun h => ?_, fun h => ?_⟩
    · have := hup h
      unfold ascending keyLE at this
      simpa only [if_neg hod, if_neg hos] using this
    · have := hdown h
      unfold descending keyLE at this
      simpa only [if_neg hod, if_neg hos] using this

/-- C9 at scenario C: ordered by size without `ot`, the listing is `b, a`,
smallest first, and it is handed over with the key `size` and the direction
`z`. -/
theorem listing_sorted_by_key_witness :
    ∃ records messages fs,
      (handleIndex demo ⟨"/pub".toList, [], [], [], "size".toList, []⟩).page
        = some (records, messages) ∧
      records.Files = some fs ∧
      fs = [⟨"b".toList, 10, 0, false⟩, ⟨"a".toList, 20, 0, false⟩] ∧
      fs.Pairwise (fun p q => p.Size ≤ q.Size) ∧
      records.Order = some "size".toList ∧ records.OrderType = some "z".toList := by
  obtain ⟨records, messages, fs, hpage, hfiles, hf, _, hord, hot, _, hsize, _⟩ :=
    (listing_sorted_by_key demo ⟨"/pub".toList, [], [], [], "size".toList, []⟩ demoEntries
      (by decide) (by decide) rfl).1
  have hfs : (handleIndex demo ⟨"/pub".toList, [], [], [], "size".toList, []⟩).files
      = some [⟨"b".toList, 10, 0, false⟩, ⟨"a".toList, 20, 0, false⟩] := by decide
  rw [hf] at hfs
  refine ⟨records, messages, fs, hpage, hfiles, Option.some.inj hfs,
    (hsize rfl).1 (by decide), ?_, ?_⟩
  · rw [hord]; decide
  · rw [hot]; decide

/-- C10, the claim as stated fails: a request without `ot`, ordered by size,
lists `b` (size 10) before `a` (size 20), which is not descending order. -/
theorem default_direction_not_descending :
    (handleIndex demo ⟨"/pub".toList, [], [], [], "size".toList, []⟩).files = some demoEntries ∧
      ascending "size".toList demoEntries ∧ ¬ descending "size".toList demoEntries := by
  refine ⟨by decide, ?_, ?_⟩
  · have h1 : "size".toList ≠ "date".toList := by decide
    simp only [ascending, demoEntries, List.pairwise_cons, List.mem_singleton, forall_eq, keyLE,
      if_neg h1, if_true]
    simp
  · have h1 : "size".toList ≠ "date".toList := by decide
    simp only [descending, demoEntries, List.pairwise_cons, List.mem_singleton, forall_eq, keyLE,
      if_neg h1, if_true]
    simp

/-- C10, amended. The default direction is ascending: for a request that
passes the policy and whose directory can be read, the listed entries are a
rearrangement of the directory's entries in ascending order of the key chosen
by `o` whenever `ot` is absent (or anything but `z`); with `ot = z` they are in
descending order. -/
theorem default_direction_ascending (s : Server) (r : Request) (entries : List FileInfo)
    (hop : r.op ≠ "download".toList)
    (hpol : evaluate s.fold (resolve s r) s.avoidedPaths s.allowedPaths = some (false, true))
    (hread : s.readDir (resolve s r) = .ok entries) :
    ∃ fs, (handleIndex s r).files = some fs ∧ fs.Perm entries ∧
      (r.ot ≠ "z".toList → ascending r.o fs) ∧ (r.ot = "z".toList → descending r.o fs) := by
  rw [handleIndex_browse s r hop _ _ hpol, renderPage_ok s r _ _ _ entries hread]
  have hza : "a".toList ≠ "z".toList := by decide
  obtain ⟨hperm, hasc, hdesc⟩ := sortSlice_less
    (if r.o ≠ "name".toList ∧ r.o ≠ "date".toList ∧ r.o ≠ "size".toList then "name".toList
      else r.o)
    (if r.ot = "z".toList then "a".toList else "z".toList) entries
  refine ⟨_, rfl, hperm, ?_, ?_⟩
  · intro h
    have := hasc (by rw [if_neg h])
    exact List.Pairwise.imp (fun hpq => (keyLE_norm r.o _ _).mp hpq) this
  · intro h
    have := hdesc (by rw [if_pos h]; exact hza)
    exact List.Pairwise.imp (fun hpq => (keyLE_norm r.o _ _).mp hpq) this

/-- C10 at scenario C without `ot`. -/
theorem default_direction_ascending_witness :
    ∃ fs, (handleIndex demo ⟨"/pub".toList, [], [], [], "size".toList, []⟩).files = some fs ∧
      fs.Perm demoEntries ∧
      (([] : Str) ≠ "z".toList → ascending "size".toList fs) ∧
      (([] : Str) = "z".toList → descending "size".toList fs) :=
  default_direction_ascending demo ⟨"/pub".toList, [], [], [], "size".toList, []⟩ demoEntries
    (by decide) (by decide) rfl

end FileExplorer
